import Mathlib

/-!
# Recursive-descent expression parser (`src/parser.cpp`)

A shallow embedding of `Parser` from `src/parser.cpp`: the token cursor
(`peek`, `previous`, `is_at_end`, `advance`, `check`, `match`, `consume`),
error signalling (`Parser::error`, `synchronize`), the precedence chain
(`expression` .. `primary`) and the entry point `parse`.

The member `m_tokens` is never written by the parser, so it is passed as a
fixed argument; the mutable member `current` and the log of the external
diagnostic sink form the explicit state. Reads of `m_tokens` outside its
bounds are undefined behaviour in C++ and are modelled by the outcome
`fault`. C++ exceptions are modelled by the outcome `threw`. The recursive
rules take a budget of nested calls; `outOfFuel` for every budget means that
the call does not return, which is the case of `Parser::error`.

The returning calls of the rules are characterised by the relation `Returns`
(`run_returns`, `returns_run`); the properties of returned trees and of the
cursor are proved by induction on it.
-/

namespace Yard

/-- Modelled from the spec: the enumeration `TokenType` is declared in a header
that is not part of the sources. The kinds are the closed set of the data
model, plus `SEMICOLON`, which `Parser::synchronize` names. -/
inductive TokenType
  | LEFT_PAREN | RIGHT_PAREN | SEMICOLON
  | BANG | BANG_EQUAL | EQUAL_EQUAL
  | GREATER | GREATER_EQUAL | LESS | LESS_EQUAL
  | MINUS | PLUS | SLASH | STAR
  | NUMBER | STRING | TRUE | FALSE | NIL
  | CLASS | FUN | VAR | FOR | IF | WHILE | PRINT | RETURN
  | EOF
  deriving DecidableEq, Repr

/-- Modelled from the spec: the payload type of `Token::m_literal` and of
`Literal` nodes is declared in a header that is not part of the sources. It
holds a boolean, the null value, a number or a string; the parser only copies
payloads, so a number is kept as the numeral the scanner read. -/
inductive Value
  | null
  | bool (b : Bool)
  | number (n : Nat)
  | string (s : String)
  deriving DecidableEq, Repr

/-- Modelled from the spec: class `Token` is declared in a header that is not
part of the sources. The parser reads `m_type` and `m_literal`; the lexeme and
the line are the source-location metadata. -/
structure Token where
  m_type : TokenType
  m_lexeme : String
  m_literal : Value
  m_line : Nat
  deriving DecidableEq, Repr

/-- The AST classes `Literal`, `Grouping`, `Unary`, `Binary` built by the
parser through `std::make_shared`. -/
inductive Expr
  | Literal (value : Value)
  | Grouping (expression : Expr)
  | Unary (op : Token) (right : Expr)
  | Binary (left : Expr) (op : Token) (right : Expr)
  deriving DecidableEq, Repr

/-- Class `ParseError`: `Parser::error` builds it with `new ParseError()`, so
an instance holds no data. -/
structure ParseError where
  deriving DecidableEq, Repr

/-- A value in flight after a `throw`, tagged with its static C++ type, which is
what a `catch` clause selects on. -/
inductive Thrown
  /-- An object of type `ParseError*`, the type of `throw error(..)` since
  `Parser::error` returns `ParseError*`. -/
  | ParseErrorPtr (e : ParseError)
  /-- An object of type `ParseError`, the type `catch(ParseError e)` handles. -/
  | ParseErrorVal (e : ParseError)
  deriving DecidableEq, Repr

/-- The mutable state: the member `current` and the reports received so far by
the external diagnostic sink, oldest first. -/
structure State where
  current : Nat
  reports : List (Token × String)
  deriving DecidableEq, Repr

/-- How a call ends. -/
inductive Outcome (α : Type)
  /-- Normal return. -/
  | ok (a : α) (s : State)
  /-- An exception left the call. -/
  | threw (e : Thrown) (s : State)
  /-- A read of `m_tokens` outside its bounds. -/
  | fault
  /-- The budget of nested calls and loop iterations ran out; a call that ends
  so for every budget does not return. -/
  | outOfFuel
  deriving DecidableEq, Repr

/-- A member function of `Parser` returning `α`. -/
def M (α : Type) : Type := State → Outcome α

/-- Normal return of a value. -/
def M.pure {α : Type} (a : α) : M α := fun s => Outcome.ok a s

/-- Sequencing: the second call runs only after a normal return of the first. -/
def M.bind {α β : Type} (x : M α) (f : α → M β) : M β := fun s =>
  match x s with
  | Outcome.ok a s1 => f a s1
  | Outcome.threw e s1 => Outcome.threw e s1
  | Outcome.fault => Outcome.fault
  | Outcome.outOfFuel => Outcome.outOfFuel

instance : Monad M where
  pure := M.pure
  bind := M.bind

/-- The statement `throw e`. -/
def throwM {α : Type} (e : Thrown) : M α := fun s => Outcome.threw e s

/-- Modelled from the spec: the free function `void error(Token, std::string)`
declared at namespace scope in `parser.cpp` and defined elsewhere. It is the
external diagnostic sink, which records one report per call. -/
def report (token : Token) (message : String) : M Unit := fun s =>
  Outcome.ok () { s with reports := s.reports ++ [(token, message)] }

/-- The statement `current++`. -/
def incrCurrent : M Unit := fun s => Outcome.ok () { s with current := s.current + 1 }

section Cursor

variable (m_tokens : List Token)

/-- Member `Token Parser::peek()`: `return m_tokens[current];` -/
def peek : M Token := fun s =>
  match m_tokens[s.current]? with
  | some t => Outcome.ok t s
  | none => Outcome.fault

/-- Member `Token Parser::previous()`: `return m_tokens[current -1];` -/
def previous : M Token := fun s =>
  if s.current = 0 then Outcome.fault
  else
    match m_tokens[s.current - 1]? with
    | some t => Outcome.ok t s
    | none => Outcome.fault

/-- Member `bool Parser::is_at_end()`: `return peek().m_type == EOF;` -/
def is_at_end : M Bool := do
  let t ← peek m_tokens
  pure (t.m_type == TokenType.EOF)

/-- Member `Token Parser::advance()`: `if(!is_at_end()) current++; return previous();` -/
def advance : M Token := do
  if !(← is_at_end m_tokens) then
    incrCurrent
  previous m_tokens

/-- Member `bool Parser::check(TokenType type)`. -/
def check (type : TokenType) : M Bool := do
  if (← is_at_end m_tokens) then return false
  return (← peek m_tokens).m_type == type

/-- The fold expression `(... || check(type))`: a left fold of `||`, which
evaluates its right operand only when the left one is false; over an empty
pack its value is `false`. -/
def anyCheck : List TokenType → M Bool
  | [] => pure false
  | type :: rest => do
    if (← check m_tokens type) then return true
    anyCheck rest

/-- Member template `bool Parser::match(T... type)`. -/
def match_ (types : List TokenType) : M Bool := do
  if (← anyCheck m_tokens types) then
    let _ ← advance m_tokens
    return true
  return false

/-- Member `ParseError* Parser::error(Token token, std::string message)`, whose body is
`error(token, message); return new ParseError();`. The call is unqualified and
stands in a member function of `Parser`: class scope is searched before
namespace scope and the search ends at the first scope that declares the name,
so `error` names the member `Parser::error(Token, std::string)`, and a member
in the lookup set switches argument-dependent lookup off. The free function
`error` is hidden; the call is `Parser::error` calling itself. -/
def error : Nat → Token → String → M ParseError
  | 0, _, _ => fun _ => Outcome.outOfFuel
  | fuel + 1, token, message => do
    let _ ← error fuel token message
    return {}

/-- Member `Token Parser::consume(TokenType type, std::string message)`; `fuel` is the
budget left for the call of `Parser::error`. -/
def consume (fuel : Nat) (type : TokenType) (message : String) : M Token := do
  if (← check m_tokens type) then return (← advance m_tokens)
  let e ← error fuel (← peek m_tokens) message
  throwM (Thrown.ParseErrorPtr e)

/-- The statement of `Parser::synchronize` that follows `advance()`: the loop
`while(!is_at_end())`, one iteration per unit of budget. -/
def synchronizeLoop : Nat → M Unit
  | 0 => fun _ => Outcome.outOfFuel
  | fuel + 1 => do
    if !(← is_at_end m_tokens) then
      if (← previous m_tokens).m_type == TokenType.SEMICOLON then return ()
      match (← peek m_tokens).m_type with
      | TokenType.CLASS | TokenType.FUN | TokenType.VAR | TokenType.FOR
      | TokenType.IF | TokenType.WHILE | TokenType.PRINT | TokenType.RETURN => return ()
      | _ => pure ()
      let _ ← advance m_tokens
      synchronizeLoop fuel

/-- Member `void Parser::synchronize()`; every iteration of its loop moves the cursor
forward, so one unit of budget per token is enough. -/
def synchronize : M Unit := do
  let _ ← advance m_tokens
  synchronizeLoop m_tokens (m_tokens.length + 1)

/-- The `Literal` node that `Parser::primary` builds after consuming the
literal token `t`. -/
def lit (t : Token) : Expr :=
  match t.m_type with
  | TokenType.FALSE => Expr.Literal (Value.bool false)
  | TokenType.TRUE => Expr.Literal (Value.bool true)
  | TokenType.NIL => Expr.Literal Value.null
  | _ => Expr.Literal t.m_literal

mutual

/-- Member `std::shared_ptr<Expr> Parser::expression()`. -/
def expression : Nat → M Expr
  | 0 => fun _ => Outcome.outOfFuel
  | fuel + 1 => equality fuel

/-- Member `std::shared_ptr<Expr> Parser::equality()`. -/
def equality : Nat → M Expr
  | 0 => fun _ => Outcome.outOfFuel
  | fuel + 1 => do
    let expr ← comparison fuel
    equalityLoop fuel expr

/-- The loop `while(match(BANG_EQUAL, EQUAL_EQUAL))` of `Parser::equality`,
entered with the accumulated `expr`. -/
def equalityLoop : Nat → Expr → M Expr
  | 0, _ => fun _ => Outcome.outOfFuel
  | fuel + 1, expr => do
    if (← match_ m_tokens [TokenType.BANG_EQUAL, TokenType.EQUAL_EQUAL]) then
      let op ← previous m_tokens
      let right ← comparison fuel
      equalityLoop fuel (Expr.Binary expr op right)
    else
      return expr

/-- Member `std::shared_ptr<Expr> Parser::comparison()`. -/
def comparison : Nat → M Expr
  | 0 => fun _ => Outcome.outOfFuel
  | fuel + 1 => do
    let expr ← term fuel
    comparisonLoop fuel expr

/-- The loop `while(match(GREATER, GREATER_EQUAL, LESS, LESS_EQUAL))` of
`Parser::comparison`. -/
def comparisonLoop : Nat → Expr → M Expr
  | 0, _ => fun _ => Outcome.outOfFuel
  | fuel + 1, expr => do
    if (← match_ m_tokens [TokenType.GREATER, TokenType.GREATER_EQUAL,
        TokenType.LESS, TokenType.LESS_EQUAL]) then
      let op ← previous m_tokens
      let right ← term fuel
      comparisonLoop fuel (Expr.Binary expr op right)
    else
      return expr

/-- Member `std::shared_ptr<Expr> Parser::term()`. -/
def term : Nat → M Expr
  | 0 => fun _ => Outcome.outOfFuel
  | fuel + 1 => do
    let expr ← factor fuel
    termLoop fuel expr

/-- The loop `while(match(MINUS, PLUS))` of `Parser::term`. -/
def termLoop : Nat → Expr → M Expr
  | 0, _ => fun _ => Outcome.outOfFuel
  | fuel + 1, expr => do
    if (← match_ m_tokens [TokenType.MINUS, TokenType.PLUS]) then
      let op ← previous m_tokens
      let right ← factor fuel
      termLoop fuel (Expr.Binary expr op right)
    else
      return expr

/-- Member `std::shared_ptr<Expr> Parser::factor()`. -/
def factor : Nat → M Expr
  | 0 => fun _ => Outcome.outOfFuel
  | fuel + 1 => do
    let expr ← unary fuel
    factorLoop fuel expr

/-- The loop `while(match(SLASH, STAR))` of `Parser::factor`. -/
def factorLoop : Nat → Expr → M Expr
  | 0, _ => fun _ => Outcome.outOfFuel
  | fuel + 1, expr => do
    if (← match_ m_tokens [TokenType.SLASH, TokenType.STAR]) then
      let op ← previous m_tokens
      let right ← unary fuel
      factorLoop fuel (Expr.Binary expr op right)
    else
      return expr

/-- Member `std::shared_ptr<Expr> Parser::unary()`. -/
def unary : Nat → M Expr
  | 0 => fun _ => Outcome.outOfFuel
  | fuel + 1 => do
    if (← match_ m_tokens [TokenType.BANG, TokenType.MINUS]) then
      let op ← previous m_tokens
      let right ← unary fuel
      return Expr.Unary op right
    primary fuel

/-- Member `std::shared_ptr<Expr> Parser::primary()`. -/
def primary : Nat → M Expr
  | 0 => fun _ => Outcome.outOfFuel
  | fuel + 1 => do
    if (← match_ m_tokens [TokenType.FALSE]) then return Expr.Literal (Value.bool false)
    if (← match_ m_tokens [TokenType.TRUE]) then return Expr.Literal (Value.bool true)
    if (← match_ m_tokens [TokenType.NIL]) then return Expr.Literal Value.null
    if (← match_ m_tokens [TokenType.NUMBER, TokenType.STRING]) then
      return Expr.Literal (← previous m_tokens).m_literal
    if (← match_ m_tokens [TokenType.LEFT_PAREN]) then
      let expr ← expression fuel
      let _ ← consume m_tokens fuel TokenType.RIGHT_PAREN "Expect ')' after expression."
      return Expr.Grouping expr
    let e ← error fuel (← peek m_tokens) "Expect expression."
    throwM (Thrown.ParseErrorPtr e)

end

/-- Budget handed to `expression` by `parse`: seven nested calls lead from
`expression` to `primary`, and a rule is re-entered only after a token has been
consumed. -/
def parseFuel : Nat := 7 * m_tokens.length + 8

/-- Member `std::shared_ptr<Expr> Parser::parse()`; `none` is `nullptr`. The handler
`catch(ParseError e)` selects thrown objects of type `ParseError`; an object of
type `ParseError*` is not selected and leaves `parse`. -/
def parse : M (Option Expr) := fun s =>
  match expression m_tokens (parseFuel m_tokens) s with
  | Outcome.ok expr s1 => Outcome.ok (some expr) s1
  | Outcome.threw (Thrown.ParseErrorVal _) s1 => Outcome.ok none s1
  | Outcome.threw (Thrown.ParseErrorPtr e) s1 => Outcome.threw (Thrown.ParseErrorPtr e) s1
  | Outcome.fault => Outcome.fault
  | Outcome.outOfFuel => Outcome.outOfFuel

end Cursor

/-- Shorthand for a token without payload. -/
def tk (type : TokenType) (lexeme : String) : Token :=
  { m_type := type, m_lexeme := lexeme, m_literal := Value.null, m_line := 1 }

/-- Shorthand for a `NUMBER` token. -/
def num (n : Nat) : Token :=
  { m_type := TokenType.NUMBER, m_lexeme := toString n, m_literal := Value.number n, m_line := 1 }

/-- The state in which `parse` is entered. -/
def State.init : State := { current := 0, reports := [] }

/-- Kinds of the literal tokens. -/
def TokenType.isLiteral : TokenType → Bool
  | TokenType.NUMBER | TokenType.STRING | TokenType.TRUE | TokenType.FALSE
  | TokenType.NIL => true
  | _ => false

/-- Operator kinds tested by the loop of `Parser::equality`. -/
def equalityOps : List TokenType := [TokenType.BANG_EQUAL, TokenType.EQUAL_EQUAL]

/-- Operator kinds tested by the loop of `Parser::comparison`. -/
def comparisonOps : List TokenType :=
  [TokenType.GREATER, TokenType.GREATER_EQUAL, TokenType.LESS, TokenType.LESS_EQUAL]

/-- Operator kinds tested by the loop of `Parser::term`. -/
def termOps : List TokenType := [TokenType.MINUS, TokenType.PLUS]

/-- Operator kinds tested by the loop of `Parser::factor`. -/
def factorOps : List TokenType := [TokenType.SLASH, TokenType.STAR]

/-- Kinds at which `Parser::synchronize` returns without consuming: the `case`
labels of its `switch`. -/
def TokenType.startsStatement : TokenType → Bool
  | TokenType.CLASS | TokenType.FUN | TokenType.VAR | TokenType.FOR
  | TokenType.IF | TokenType.WHILE | TokenType.PRINT | TokenType.RETURN => true
  | _ => false

/-- Kind of the token at index `j`, when there is one. -/
def kindAt (m_tokens : List Token) (j : Nat) : Option TokenType :=
  (m_tokens[j]?).map Token.m_type

/-- Index `j` is a stop position of `Parser::synchronize`: the token at `j` is
`EOF`, or the token at `j - 1` is `SEMICOLON`, or the token at `j` starts a
statement. -/
def isBoundary (m_tokens : List Token) (j : Nat) : Bool :=
  kindAt m_tokens j == some TokenType.EOF
    || (decide (0 < j) && kindAt m_tokens (j - 1) == some TokenType.SEMICOLON)
    || (match kindAt m_tokens j with
        | some k => k.startsStatement
        | none => false)

/-- The four binary levels of the precedence chain, loosest first. -/
inductive Level
  | equality | comparison | term | factor
  deriving DecidableEq, Repr

/-- Position of a level in the chain: equality 0, comparison 1, term 2, factor 3. -/
def Level.toNat : Level → Nat
  | Level.equality => 0
  | Level.comparison => 1
  | Level.term => 2
  | Level.factor => 3

/-- Operator kinds that the loop of a level tests with `match`. -/
def Level.ops : Level → List TokenType
  | Level.equality => equalityOps
  | Level.comparison => comparisonOps
  | Level.term => termOps
  | Level.factor => factorOps

/-- A call of the precedence chain: one of the seven grammar rules, or the
`while` loop of a binary level entered with the accumulated expression. -/
inductive Rule
  | expression
  | binary (l : Level)
  | loop (l : Level) (expr : Expr)
  | unary
  | primary

/-- The rule that a binary level calls for its operands. -/
def Rule.lower : Level → Rule
  | Level.equality => Rule.binary Level.comparison
  | Level.comparison => Rule.binary Level.term
  | Level.term => Rule.binary Level.factor
  | Level.factor => Rule.unary

/-- The member function (or loop) that a `Rule` names. -/
def Rule.run (m_tokens : List Token) : Rule → Nat → M Expr
  | Rule.expression => Yard.expression m_tokens
  | Rule.binary Level.equality => equality m_tokens
  | Rule.binary Level.comparison => comparison m_tokens
  | Rule.binary Level.term => term m_tokens
  | Rule.binary Level.factor => factor m_tokens
  | Rule.loop Level.equality expr => fun fuel => equalityLoop m_tokens fuel expr
  | Rule.loop Level.comparison expr => fun fuel => comparisonLoop m_tokens fuel expr
  | Rule.loop Level.term expr => fun fuel => termLoop m_tokens fuel expr
  | Rule.loop Level.factor expr => fun fuel => factorLoop m_tokens fuel expr
  | Rule.unary => Yard.unary m_tokens
  | Rule.primary => Yard.primary m_tokens

/-- The returning calls of the precedence chain, read off the bodies of the
rules: `Returns m_tokens rule s expr s1` when `rule`, entered in state `s`, returns
`expr` and leaves state `s1`. `run_returns` shows that every returning call of
the code is of this form. -/
inductive Returns (m_tokens : List Token) : Rule → State → Expr → State → Prop
  | expression {s s1 : State} {expr : Expr} :
      Returns m_tokens (Rule.binary Level.equality) s expr s1 →
      Returns m_tokens Rule.expression s expr s1
  | binary {l : Level} {s s1 s2 : State} {left expr : Expr} :
      Returns m_tokens (Rule.lower l) s left s1 →
      Returns m_tokens (Rule.loop l left) s1 expr s2 →
      Returns m_tokens (Rule.binary l) s expr s2
  | loopStop {l : Level} {s : State} {expr : Expr} {t : Token} :
      m_tokens[s.current]? = some t → t.m_type ∉ l.ops →
      Returns m_tokens (Rule.loop l expr) s expr s
  | loopStep {l : Level} {s s1 s2 : State} {left right expr : Expr} {op : Token} :
      m_tokens[s.current]? = some op → op.m_type ∈ l.ops →
      Returns m_tokens (Rule.lower l) { s with current := s.current + 1 } right s1 →
      Returns m_tokens (Rule.loop l (Expr.Binary left op right)) s1 expr s2 →
      Returns m_tokens (Rule.loop l left) s expr s2
  | unaryOp {s s1 : State} {right : Expr} {op : Token} :
      m_tokens[s.current]? = some op →
      op.m_type = TokenType.BANG ∨ op.m_type = TokenType.MINUS →
      Returns m_tokens Rule.unary { s with current := s.current + 1 } right s1 →
      Returns m_tokens Rule.unary s (Expr.Unary op right) s1
  | unaryPrimary {s s1 : State} {expr : Expr} {t : Token} :
      m_tokens[s.current]? = some t →
      t.m_type ≠ TokenType.BANG → t.m_type ≠ TokenType.MINUS →
      Returns m_tokens Rule.primary s expr s1 →
      Returns m_tokens Rule.unary s expr s1
  | literal {s : State} {t : Token} :
      m_tokens[s.current]? = some t → t.m_type.isLiteral = true →
      Returns m_tokens Rule.primary s (lit t) { s with current := s.current + 1 }
  | grouping {s s1 : State} {expr : Expr} {lp rp : Token} :
      m_tokens[s.current]? = some lp → lp.m_type = TokenType.LEFT_PAREN →
      Returns m_tokens Rule.expression { s with current := s.current + 1 } expr s1 →
      m_tokens[s1.current]? = some rp → rp.m_type = TokenType.RIGHT_PAREN →
      Returns m_tokens Rule.primary s (Expr.Grouping expr)
        { s1 with current := s1.current + 1 }

/-- Level of a binary operator kind, as the rule whose loop tests it: equality
0, comparison 1, term 2, factor 3; `none` for every other kind. -/
def TokenType.binaryLevel : TokenType → Option Nat
  | TokenType.BANG_EQUAL | TokenType.EQUAL_EQUAL => some 0
  | TokenType.GREATER | TokenType.GREATER_EQUAL | TokenType.LESS | TokenType.LESS_EQUAL => some 1
  | TokenType.MINUS | TokenType.PLUS => some 2
  | TokenType.SLASH | TokenType.STAR => some 3
  | _ => none

/-- Precedence level of a tree: the level of its operator for a `Binary` node
(0 when the operator is no binary operator), 4 for a `Unary` node, 5 for a
`Literal` or `Grouping` node. -/
def Expr.level : Expr → Nat
  | Expr.Binary _ op _ => (op.m_type.binaryLevel).getD 0
  | Expr.Unary _ _ => 4
  | _ => 5

/-- Precedence-well-formed trees: every `Binary` operator is a binary operator
kind, of level `l` say, with a left child of level at least `l` and a right
child of level above `l`; every `Unary` operator is `BANG` or `MINUS` and its
operand is no `Binary` node. -/
def Expr.wellFormed : Expr → Bool
  | Expr.Literal _ => true
  | Expr.Grouping e => e.wellFormed
  | Expr.Unary op e =>
    (op.m_type == TokenType.BANG || op.m_type == TokenType.MINUS)
      && decide (4 ≤ e.level) && e.wellFormed
  | Expr.Binary left op right =>
    match op.m_type.binaryLevel with
    | none => false
    | some l =>
      decide (l ≤ left.level) && decide (l < right.level) && left.wellFormed
        && right.wellFormed

/-- Loosest level of a tree that a rule returns: the position of the rule in
the chain. -/
def Rule.minLevel : Rule → Nat
  | Rule.expression => 0
  | Rule.binary l => l.toNat
  | Rule.loop l _ => l.toNat
  | Rule.unary => 4
  | Rule.primary => 5

/-- What a loop assumes of the expression it is entered with. -/
def Rule.accWellFormed : Rule → Prop
  | Rule.loop l expr => expr.wellFormed = true ∧ l.toNat ≤ expr.level
  | _ => True

/-- The ten binary operator kinds. -/
def binaryOps : List TokenType :=
  [TokenType.BANG_EQUAL, TokenType.EQUAL_EQUAL, TokenType.GREATER, TokenType.GREATER_EQUAL,
    TokenType.LESS, TokenType.LESS_EQUAL, TokenType.MINUS, TokenType.PLUS, TokenType.SLASH,
    TokenType.STAR]

/-- Kind `k` is no operator of the levels at position `n` or tighter. -/
def stopsFrom (n : Nat) (k : TokenType) : Prop :=
  ∀ l : Level, n ≤ l.toNat → k ∉ l.ops

/-- Where a returning rule leaves the cursor: a binary level (and `expression`)
on a token that is no operator of its level or of a tighter one; a loop
likewise, when it was entered on a token that is no operator of a tighter
level. -/
def Rule.stops (m_tokens : List Token) : Rule → State → State → Prop
  | Rule.expression, _, s1 => ∃ t, m_tokens[s1.current]? = some t ∧ stopsFrom 0 t.m_type
  | Rule.binary l, _, s1 => ∃ t, m_tokens[s1.current]? = some t ∧ stopsFrom l.toNat t.m_type
  | Rule.loop l _, s, s1 =>
    (∀ t, m_tokens[s.current]? = some t → stopsFrom (l.toNat + 1) t.m_type) →
      ∃ t, m_tokens[s1.current]? = some t ∧ stopsFrom l.toNat t.m_type
  | Rule.unary, _, _ => True
  | Rule.primary, _, _ => True

/-- Number of tokens that a tree accounts for: one for a literal, two
parentheses for a grouping, one for each operator. -/
def Expr.size : Expr → Nat
  | Expr.Literal _ => 1
  | Expr.Grouping e => 2 + e.size
  | Expr.Unary _ e => 1 + e.size
  | Expr.Binary left _ right => 1 + left.size + right.size

/-- The operator tokens stored in a tree, in source order. -/
def Expr.operators : Expr → List Token
  | Expr.Literal _ => []
  | Expr.Grouping e => e.operators
  | Expr.Unary op e => op :: e.operators
  | Expr.Binary left op right => left.operators ++ op :: right.operators

/-- Size of the expression a loop is entered with; 0 for a grammar rule. -/
def Rule.accSize : Rule → Nat
  | Rule.loop _ expr => expr.size
  | _ => 0

/-- Operators of the expression a loop is entered with. -/
def Rule.accOperators : Rule → List Token
  | Rule.loop _ expr => expr.operators
  | _ => []

/-- Token accounting of a grammar rule that starts at `s` and returns `expr` at
`s1`: the index has grown by `expr.size`, which is positive, the sink is
untouched, and every operator stored in `expr` is the token of the input at
some position between the two indices. -/
def Accounts (m_tokens : List Token) (s : State) (expr : Expr) (s1 : State) : Prop :=
  s1.current - s.current = expr.size ∧ s.current < s1.current ∧ s1.reports = s.reports
    ∧ ∀ op ∈ expr.operators, ∃ k, s.current ≤ k ∧ k < s1.current ∧ m_tokens[k]? = some op

/-- The literal token printed for a payload: `nil`, `true`, `false`, or a
`NUMBER` or `STRING` token carrying the payload. -/
def Value.token : Value → Token
  | Value.null => tk TokenType.NIL "nil"
  | Value.bool true => tk TokenType.TRUE "true"
  | Value.bool false => tk TokenType.FALSE "false"
  | Value.number n => num n
  | Value.string str =>
    { m_type := TokenType.STRING, m_lexeme := str, m_literal := Value.string str, m_line := 1 }

/-- Printing a tree back to tokens: a literal is its literal token, a grouping
its inner tokens between parentheses, a unary node its operator then its
operand, a binary node its left operand, its operator, its right operand. -/
def Expr.unparse : Expr → List Token
  | Expr.Literal v => [v.token]
  | Expr.Grouping e => tk TokenType.LEFT_PAREN "(" :: (e.unparse ++ [tk TokenType.RIGHT_PAREN ")"])
  | Expr.Unary op e => op :: e.unparse
  | Expr.Binary left op right => left.unparse ++ op :: right.unparse

/-- Nested calls between a rule and `primary`, itself included. -/
def Rule.cost : Rule → Nat
  | Rule.expression => 7
  | Rule.binary l => 6 - l.toNat
  | Rule.loop l _ => 6 - l.toNat
  | Rule.unary => 2
  | Rule.primary => 1

/-- Rule `rule` parses the printed tree `expr` wherever it stands, when the token
after it is no operator that `rule` or a tighter level would consume and the
budget is seven per token plus the depth of the rule. -/
def Parses (rule : Rule) (expr : Expr) : Prop :=
  ∀ (m_tokens pre post : List Token) (nxt : Token) (fuel : Nat) (r : List (Token × String)),
    m_tokens = pre ++ expr.unparse ++ nxt :: post →
    stopsFrom rule.minLevel nxt.m_type →
    7 * expr.size + rule.cost ≤ fuel →
    rule.run m_tokens fuel { current := pre.length, reports := r }
      = Outcome.ok expr { current := pre.length + expr.size, reports := r }

/-- The binary level `l`, started on the printed tree `expr`, reaches its loop
with `expr` accumulated and the cursor behind the tree, having spent at most
one unit of budget per token. -/
def Continues (l : Level) (expr : Expr) : Prop :=
  ∀ (m_tokens pre post : List Token) (nxt : Token) (n : Nat) (r : List (Token × String)),
    m_tokens = pre ++ expr.unparse ++ nxt :: post →
    stopsFrom (l.toNat + 1) nxt.m_type →
    7 * expr.size + (Rule.binary l).cost ≤ n + 1 →
    ∃ m, n ≤ m + expr.size
      ∧ (Rule.binary l).run m_tokens (n + 1) { current := pre.length, reports := r }
        = (Rule.loop l expr).run m_tokens m
            { current := pre.length + expr.size, reports := r }

/-- The sentinel invariant of the token sequence ("EOF-terminated"): the
sequence is not empty, its last token has kind `EOF` and no other token has. -/
def EOFTerminated : List Token → Bool
  | [] => false
  | [t] => t.m_type == TokenType.EOF
  | t :: u :: rest => t.m_type != TokenType.EOF && EOFTerminated (u :: rest)

/-! ## The monad of member functions -/

theorem pure_run {α : Type} (a : α) (s : State) : (pure a : M α) s = Outcome.ok a s := rfl

theorem bind_run {α β : Type} (x : M α) (f : α → M β) (s : State) :
    (x >>= f) s = M.bind x f s := rfl

theorem bind_ok {α β : Type} {x : M α} {f : α → M β} {s s1 : State} {a : α}
    (h : x s = Outcome.ok a s1) : M.bind x f s = f a s1 := by
  simp [M.bind, h]

theorem bind_threw {α β : Type} {x : M α} {f : α → M β} {s s1 : State} {e : Thrown}
    (h : x s = Outcome.threw e s1) : M.bind x f s = Outcome.threw e s1 := by
  simp [M.bind, h]

/-! ## The token cursor -/

section CursorFacts

variable {m_tokens : List Token} {s : State} {t : Token}

theorem peek_eq (h : m_tokens[s.current]? = some t) : peek m_tokens s = Outcome.ok t s := by
  simp [peek, h]

theorem is_at_end_eq (h : m_tokens[s.current]? = some t) :
    is_at_end m_tokens s = Outcome.ok (t.m_type == TokenType.EOF) s := by
  simp [is_at_end, bind_run, bind_ok (peek_eq h), pure_run]

theorem check_eq (h : m_tokens[s.current]? = some t) (type : TokenType) :
    check m_tokens type s
      = Outcome.ok (!(t.m_type == TokenType.EOF) && t.m_type == type) s := by
  by_cases he : t.m_type = TokenType.EOF <;>
    simp [check, is_at_end, peek, bind_run, M.bind, pure_run, h, he]

theorem anyCheck_eq (h : m_tokens[s.current]? = some t) (types : List TokenType) :
    anyCheck m_tokens types s
      = Outcome.ok (!(t.m_type == TokenType.EOF) && types.contains t.m_type) s := by
  induction types with
  | nil => simp [anyCheck, pure_run]
  | cons type rest ih =>
    by_cases he : t.m_type = TokenType.EOF
    · simp [anyCheck, bind_run, M.bind, pure_run, check_eq h, he, ih]
    · by_cases hk : t.m_type = type
      · subst hk
        simp [anyCheck, bind_run, M.bind, pure_run, check_eq h, he]
      · simp [anyCheck, bind_run, M.bind, pure_run, check_eq h, he, hk, ih]

theorem advance_eq_of_not_end (h : m_tokens[s.current]? = some t)
    (he : t.m_type ≠ TokenType.EOF) :
    advance m_tokens s = Outcome.ok t { s with current := s.current + 1 } := by
  simp [advance, is_at_end, peek, previous, incrCurrent, bind_run, M.bind, pure_run, h, he]

theorem advance_eq_of_end (h : m_tokens[s.current]? = some t)
    (he : t.m_type = TokenType.EOF) :
    advance m_tokens s = previous m_tokens s := by
  simp [advance, is_at_end, peek, bind_run, M.bind, pure_run, h, he]

theorem match_eq_true (h : m_tokens[s.current]? = some t) (types : List TokenType)
    (he : t.m_type ≠ TokenType.EOF) (hk : t.m_type ∈ types) :
    match_ m_tokens types s = Outcome.ok true { s with current := s.current + 1 } := by
  simp [match_, bind_run, M.bind, pure_run, anyCheck_eq h, advance_eq_of_not_end h he, he, hk]

theorem match_eq_false (h : m_tokens[s.current]? = some t) (types : List TokenType)
    (hk : t.m_type = TokenType.EOF ∨ t.m_type ∉ types) :
    match_ m_tokens types s = Outcome.ok false s := by
  rcases hk with hk | hk <;>
    simp [match_, bind_run, M.bind, pure_run, anyCheck_eq h, hk]

theorem previous_succ (h : m_tokens[s.current]? = some t) :
    previous m_tokens { s with current := s.current + 1 }
      = Outcome.ok t { s with current := s.current + 1 } := by
  simp [previous, h]

theorem error_eq (fuel : Nat) (token : Token) (message : String) (s : State) :
    error fuel token message s = Outcome.outOfFuel := by
  induction fuel with
  | zero => simp [error]
  | succ n ih => simp [error, bind_run, M.bind, ih]

theorem consume_eq_ok (fuel : Nat) (h : m_tokens[s.current]? = some t) (type : TokenType)
    (message : String) (he : t.m_type ≠ TokenType.EOF) (hk : t.m_type = type) :
    consume m_tokens fuel type message s
      = Outcome.ok t { s with current := s.current + 1 } := by
  subst hk
  simp [consume, bind_run, M.bind, pure_run, check_eq h, advance_eq_of_not_end h he, he]

theorem consume_eq_outOfFuel (fuel : Nat) (h : m_tokens[s.current]? = some t)
    (type : TokenType) (message : String) (hk : t.m_type = TokenType.EOF ∨ t.m_type ≠ type) :
    consume m_tokens fuel type message s = Outcome.outOfFuel := by
  rcases hk with hk | hk <;>
    simp [consume, error_eq, bind_run, M.bind, pure_run, check_eq h, peek_eq h, hk]

end CursorFacts

/-! ## One step of each grammar rule -/

section RuleSteps

variable {m_tokens : List Token} {s s1 : State} {t : Token}

theorem primary_literal (n : Nat) (h : m_tokens[s.current]? = some t)
    (hl : t.m_type.isLiteral = true) :
    primary m_tokens (n + 1) s = Outcome.ok (lit t) { s with current := s.current + 1 } := by
  have hp := previous_succ h
  cases hk : t.m_type <;> simp [hk, TokenType.isLiteral] at hl
  · have h1 : match_ m_tokens [TokenType.FALSE] s = Outcome.ok false s :=
      match_eq_false h _ (by simp [hk])
    have h2 : match_ m_tokens [TokenType.TRUE] s = Outcome.ok false s :=
      match_eq_false h _ (by simp [hk])
    have h3 : match_ m_tokens [TokenType.NIL] s = Outcome.ok false s :=
      match_eq_false h _ (by simp [hk])
    have h4 := match_eq_true h [TokenType.NUMBER, TokenType.STRING] (by simp [hk]) (by simp [hk])
    simp [primary, bind_run, M.bind, pure_run, h1, h2, h3, h4, hp, lit, hk]
  · have h1 : match_ m_tokens [TokenType.FALSE] s = Outcome.ok false s :=
      match_eq_false h _ (by simp [hk])
    have h2 : match_ m_tokens [TokenType.TRUE] s = Outcome.ok false s :=
      match_eq_false h _ (by simp [hk])
    have h3 : match_ m_tokens [TokenType.NIL] s = Outcome.ok false s :=
      match_eq_false h _ (by simp [hk])
    have h4 := match_eq_true h [TokenType.NUMBER, TokenType.STRING] (by simp [hk]) (by simp [hk])
    simp [primary, bind_run, M.bind, pure_run, h1, h2, h3, h4, hp, lit, hk]
  · have h1 : match_ m_tokens [TokenType.FALSE] s = Outcome.ok false s :=
      match_eq_false h _ (by simp [hk])
    have h2 := match_eq_true h [TokenType.TRUE] (by simp [hk]) (by simp [hk])
    simp [primary, bind_run, M.bind, pure_run, h1, h2, lit, hk]
  · have h1 := match_eq_true h [TokenType.FALSE] (by simp [hk]) (by simp [hk])
    simp [primary, bind_run, M.bind, pure_run, h1, lit, hk]
  · have h1 : match_ m_tokens [TokenType.FALSE] s = Outcome.ok false s :=
      match_eq_false h _ (by simp [hk])
    have h2 : match_ m_tokens [TokenType.TRUE] s = Outcome.ok false s :=
      match_eq_false h _ (by simp [hk])
    have h3 := match_eq_true h [TokenType.NIL] (by simp [hk]) (by simp [hk])
    simp [primary, bind_run, M.bind, pure_run, h1, h2, h3, lit, hk]

theorem primary_paren (n : Nat) (h : m_tokens[s.current]? = some t)
    (hk : t.m_type = TokenType.LEFT_PAREN) :
    primary m_tokens (n + 1) s
      = M.bind (expression m_tokens n)
          (fun expr => M.bind (consume m_tokens n TokenType.RIGHT_PAREN "Expect ')' after expression.")
            (fun _ => pure (Expr.Grouping expr)))
          { s with current := s.current + 1 } := by
  have h1 : match_ m_tokens [TokenType.FALSE] s = Outcome.ok false s :=
    match_eq_false h _ (by simp [hk])
  have h2 : match_ m_tokens [TokenType.TRUE] s = Outcome.ok false s :=
    match_eq_false h _ (by simp [hk])
  have h3 : match_ m_tokens [TokenType.NIL] s = Outcome.ok false s :=
    match_eq_false h _ (by simp [hk])
  have h4 : match_ m_tokens [TokenType.NUMBER, TokenType.STRING] s = Outcome.ok false s :=
    match_eq_false h _ (by simp [hk])
  have h5 := match_eq_true h [TokenType.LEFT_PAREN] (by simp [hk]) (by simp [hk])
  simp [primary, bind_run, M.bind, pure_run, h1, h2, h3, h4, h5]

theorem primary_no_start (n : Nat) (h : m_tokens[s.current]? = some t)
    (hl : t.m_type.isLiteral = false) (hk : t.m_type ≠ TokenType.LEFT_PAREN) :
    primary m_tokens (n + 1) s = Outcome.outOfFuel := by
  have h1 : match_ m_tokens [TokenType.FALSE] s = Outcome.ok false s :=
    match_eq_false h _ (by cases hty : t.m_type <;> simp_all [TokenType.isLiteral])
  have h2 : match_ m_tokens [TokenType.TRUE] s = Outcome.ok false s :=
    match_eq_false h _ (by cases hty : t.m_type <;> simp_all [TokenType.isLiteral])
  have h3 : match_ m_tokens [TokenType.NIL] s = Outcome.ok false s :=
    match_eq_false h _ (by cases hty : t.m_type <;> simp_all [TokenType.isLiteral])
  have h4 : match_ m_tokens [TokenType.NUMBER, TokenType.STRING] s = Outcome.ok false s :=
    match_eq_false h _ (by cases hty : t.m_type <;> simp_all [TokenType.isLiteral])
  have h5 : match_ m_tokens [TokenType.LEFT_PAREN] s = Outcome.ok false s :=
    match_eq_false h _ (by simp [hk])
  simp [primary, error_eq, bind_run, M.bind, pure_run, h1, h2, h3, h4, h5, peek_eq h]

theorem unary_operator (n : Nat) (h : m_tokens[s.current]? = some t)
    (hk : t.m_type = TokenType.BANG ∨ t.m_type = TokenType.MINUS) :
    unary m_tokens (n + 1) s
      = M.bind (unary m_tokens n) (fun right => pure (Expr.Unary t right))
          { s with current := s.current + 1 } := by
  have h1 := match_eq_true h [TokenType.BANG, TokenType.MINUS]
    (by rcases hk with hk | hk <;> simp [hk]) (by rcases hk with hk | hk <;> simp [hk])
  simp [unary, bind_run, M.bind, pure_run, h1, previous_succ h]

theorem unary_operand (n : Nat) (h : m_tokens[s.current]? = some t)
    (hb : t.m_type ≠ TokenType.BANG) (hm : t.m_type ≠ TokenType.MINUS) :
    unary m_tokens (n + 1) s = primary m_tokens n s := by
  have h1 : match_ m_tokens [TokenType.BANG, TokenType.MINUS] s = Outcome.ok false s :=
    match_eq_false h _ (by simp [hb, hm])
  simp [unary, bind_run, M.bind, pure_run, h1]

theorem factor_succ (n : Nat) (s : State) :
    factor m_tokens (n + 1) s = M.bind (unary m_tokens n) (factorLoop m_tokens n) s := by
  simp [factor, bind_run]

theorem factorLoop_stop (n : Nat) (expr : Expr) (h : m_tokens[s.current]? = some t)
    (hk : t.m_type = TokenType.EOF ∨ t.m_type ∉ [TokenType.SLASH, TokenType.STAR]) :
    factorLoop m_tokens (n + 1) expr s = Outcome.ok expr s := by
  simp [factorLoop, bind_run, M.bind, pure_run, match_eq_false h _ hk]

theorem factorLoop_step (n : Nat) (expr : Expr) (h : m_tokens[s.current]? = some t)
    (hk : t.m_type ∈ [TokenType.SLASH, TokenType.STAR]) :
    factorLoop m_tokens (n + 1) expr s
      = M.bind (unary m_tokens n) (fun right => factorLoop m_tokens n (Expr.Binary expr t right))
          { s with current := s.current + 1 } := by
  have he : t.m_type ≠ TokenType.EOF := by
    intro he
    simp [he] at hk
  simp [factorLoop, bind_run, M.bind, pure_run, match_eq_true h _ he hk, previous_succ h]

theorem term_succ (n : Nat) (s : State) :
    term m_tokens (n + 1) s = M.bind (factor m_tokens n) (termLoop m_tokens n) s := by
  simp [term, bind_run]

theorem termLoop_stop (n : Nat) (expr : Expr) (h : m_tokens[s.current]? = some t)
    (hk : t.m_type = TokenType.EOF ∨ t.m_type ∉ [TokenType.MINUS, TokenType.PLUS]) :
    termLoop m_tokens (n + 1) expr s = Outcome.ok expr s := by
  simp [termLoop, bind_run, M.bind, pure_run, match_eq_false h _ hk]

theorem termLoop_step (n : Nat) (expr : Expr) (h : m_tokens[s.current]? = some t)
    (hk : t.m_type ∈ [TokenType.MINUS, TokenType.PLUS]) :
    termLoop m_tokens (n + 1) expr s
      = M.bind (factor m_tokens n) (fun right => termLoop m_tokens n (Expr.Binary expr t right))
          { s with current := s.current + 1 } := by
  have he : t.m_type ≠ TokenType.EOF := by
    intro he
    simp [he] at hk
  simp [termLoop, bind_run, M.bind, pure_run, match_eq_true h _ he hk, previous_succ h]

theorem comparison_succ (n : Nat) (s : State) :
    comparison m_tokens (n + 1) s = M.bind (term m_tokens n) (comparisonLoop m_tokens n) s := by
  simp [comparison, bind_run]

theorem comparisonLoop_stop (n : Nat) (expr : Expr) (h : m_tokens[s.current]? = some t)
    (hk : t.m_type = TokenType.EOF ∨ t.m_type ∉ [TokenType.GREATER, TokenType.GREATER_EQUAL, TokenType.LESS,
      TokenType.LESS_EQUAL]) :
    comparisonLoop m_tokens (n + 1) expr s = Outcome.ok expr s := by
  simp [comparisonLoop, bind_run, M.bind, pure_run, match_eq_false h _ hk]

theorem comparisonLoop_step (n : Nat) (expr : Expr) (h : m_tokens[s.current]? = some t)
    (hk : t.m_type ∈ [TokenType.GREATER, TokenType.GREATER_EQUAL, TokenType.LESS,
      TokenType.LESS_EQUAL]) :
    comparisonLoop m_tokens (n + 1) expr s
      = M.bind (term m_tokens n) (fun right => comparisonLoop m_tokens n (Expr.Binary expr t right))
          { s with current := s.current + 1 } := by
  have he : t.m_type ≠ TokenType.EOF := by
    intro he
    simp [he] at hk
  simp [comparisonLoop, bind_run, M.bind, pure_run, match_eq_true h _ he hk, previous_succ h]

theorem equality_succ (n : Nat) (s : State) :
    equality m_tokens (n + 1) s = M.bind (comparison m_tokens n) (equalityLoop m_tokens n) s := by
  simp [equality, bind_run]

theorem equalityLoop_stop (n : Nat) (expr : Expr) (h : m_tokens[s.current]? = some t)
    (hk : t.m_type = TokenType.EOF ∨ t.m_type ∉ [TokenType.BANG_EQUAL, TokenType.EQUAL_EQUAL]) :
    equalityLoop m_tokens (n + 1) expr s = Outcome.ok expr s := by
  simp [equalityLoop, bind_run, M.bind, pure_run, match_eq_false h _ hk]

theorem equalityLoop_step (n : Nat) (expr : Expr) (h : m_tokens[s.current]? = some t)
    (hk : t.m_type ∈ [TokenType.BANG_EQUAL, TokenType.EQUAL_EQUAL]) :
    equalityLoop m_tokens (n + 1) expr s
      = M.bind (comparison m_tokens n) (fun right => equalityLoop m_tokens n (Expr.Binary expr t right))
          { s with current := s.current + 1 } := by
  have he : t.m_type ≠ TokenType.EOF := by
    intro he
    simp [he] at hk
  simp [equalityLoop, bind_run, M.bind, pure_run, match_eq_true h _ he hk, previous_succ h]

theorem isLiteral_ne {k : TokenType} (hl : k.isLiteral = true) :
    k ≠ TokenType.BANG ∧ k ≠ TokenType.MINUS ∧ k ≠ TokenType.LEFT_PAREN ∧ k ≠ TokenType.EOF := by
  cases k <;> simp [TokenType.isLiteral] at hl <;> simp

theorem unary_literal (n : Nat) (h : m_tokens[s.current]? = some t)
    (hl : t.m_type.isLiteral = true) :
    unary m_tokens (n + 2) s = Outcome.ok (lit t) { s with current := s.current + 1 } := by
  rw [unary_operand (n + 1) h (isLiteral_ne hl).1 (isLiteral_ne hl).2.1, primary_literal n h hl]

theorem lit_eq_Literal (t : Token) : ∃ v, lit t = Expr.Literal v := by
  unfold lit
  split <;> exact ⟨_, rfl⟩

theorem factor_of_unary {n : Nat} {expr : Expr} (h : unary m_tokens n s = Outcome.ok expr s1)
    (hn : m_tokens[s1.current]? = some t)
    (hk : t.m_type = TokenType.EOF ∨ t.m_type ∉ [TokenType.SLASH, TokenType.STAR]) :
    factor m_tokens (n + 1) s = Outcome.ok expr s1 := by
  cases n with
  | zero => simp [unary] at h
  | succ m => rw [factor_succ, bind_ok h, factorLoop_stop m expr hn hk]

theorem term_of_factor {n : Nat} {expr : Expr} (h : factor m_tokens n s = Outcome.ok expr s1)
    (hn : m_tokens[s1.current]? = some t)
    (hk : t.m_type = TokenType.EOF ∨ t.m_type ∉ [TokenType.MINUS, TokenType.PLUS]) :
    term m_tokens (n + 1) s = Outcome.ok expr s1 := by
  cases n with
  | zero => simp [factor] at h
  | succ m => rw [term_succ, bind_ok h, termLoop_stop m expr hn hk]

theorem comparison_of_term {n : Nat} {expr : Expr} (h : term m_tokens n s = Outcome.ok expr s1)
    (hn : m_tokens[s1.current]? = some t)
    (hk : t.m_type = TokenType.EOF ∨ t.m_type ∉ [TokenType.GREATER, TokenType.GREATER_EQUAL, TokenType.LESS,
      TokenType.LESS_EQUAL]) :
    comparison m_tokens (n + 1) s = Outcome.ok expr s1 := by
  cases n with
  | zero => simp [term] at h
  | succ m => rw [comparison_succ, bind_ok h, comparisonLoop_stop m expr hn hk]

theorem equality_of_comparison {n : Nat} {expr : Expr} (h : comparison m_tokens n s = Outcome.ok expr s1)
    (hn : m_tokens[s1.current]? = some t)
    (hk : t.m_type = TokenType.EOF ∨ t.m_type ∉ [TokenType.BANG_EQUAL, TokenType.EQUAL_EQUAL]) :
    equality m_tokens (n + 1) s = Outcome.ok expr s1 := by
  cases n with
  | zero => simp [comparison] at h
  | succ m => rw [equality_succ, bind_ok h, equalityLoop_stop m expr hn hk]

theorem expression_succ (n : Nat) (s : State) :
    expression m_tokens (n + 1) s = equality m_tokens n s := by
  simp [expression]

theorem parse_of_expression_ok {expr : Expr}
    (h : expression m_tokens (parseFuel m_tokens) s = Outcome.ok expr s1) :
    parse m_tokens s = Outcome.ok (some expr) s1 := by
  simp [parse, h]

theorem bind_outOfFuel {α β : Type} {x : M α} {f : α → M β}
    (h : x s = Outcome.outOfFuel) : M.bind x f s = Outcome.outOfFuel := by
  simp [M.bind, h]

theorem parse_of_equality_ok {n : Nat} {expr : Expr}
    (h : equality m_tokens n s = Outcome.ok expr s1) (hn : n + 1 = parseFuel m_tokens) :
    parse m_tokens s = Outcome.ok (some expr) s1 := by
  apply parse_of_expression_ok
  rw [← hn, expression_succ, h]

theorem parse_of_term_ok {n : Nat} {expr : Expr} (h : term m_tokens n s = Outcome.ok expr s1)
    (hn : n + 3 = parseFuel m_tokens) (ht : m_tokens[s1.current]? = some t)
    (hk : t.m_type = TokenType.EOF) :
    parse m_tokens s = Outcome.ok (some expr) s1 :=
  parse_of_equality_ok
    (equality_of_comparison (comparison_of_term h ht (Or.inl hk)) ht (Or.inl hk)) hn

theorem parse_of_unary_ok {n : Nat} {expr : Expr} (h : unary m_tokens n s = Outcome.ok expr s1)
    (hn : n + 5 = parseFuel m_tokens) (ht : m_tokens[s1.current]? = some t)
    (hk : t.m_type = TokenType.EOF) :
    parse m_tokens s = Outcome.ok (some expr) s1 :=
  parse_of_term_ok (term_of_factor (factor_of_unary h ht (Or.inl hk)) ht (Or.inl hk)) hn ht hk

theorem parse_of_comparison_ok {n : Nat} {expr : Expr}
    (h : comparison m_tokens n s = Outcome.ok expr s1) (hn : n + 2 = parseFuel m_tokens)
    (ht : m_tokens[s1.current]? = some t) (hk : t.m_type = TokenType.EOF) :
    parse m_tokens s = Outcome.ok (some expr) s1 :=
  parse_of_equality_ok (equality_of_comparison h ht (Or.inl hk)) hn

theorem parse_of_factor_ok {n : Nat} {expr : Expr}
    (h : factor m_tokens n s = Outcome.ok expr s1) (hn : n + 4 = parseFuel m_tokens)
    (ht : m_tokens[s1.current]? = some t) (hk : t.m_type = TokenType.EOF) :
    parse m_tokens s = Outcome.ok (some expr) s1 :=
  parse_of_term_ok (term_of_factor h ht (Or.inl hk)) hn ht hk

theorem stop_of_mem {k : TokenType} {ops stops : List TokenType} (h : k ∈ ops)
    (hd : ∀ x ∈ ops, x ∉ stops) : k = TokenType.EOF ∨ k ∉ stops :=
  Or.inr (hd k h)

end RuleSteps

/-! ## Precedence and associativity -/

/-- C1 (precedence). For all literal tokens `a`, `b`, `c`, `parse` on
`[a, PLUS, b, STAR, c, EOF]` returns `Binary (lit a) PLUS (Binary (lit b) STAR (lit c))`
with the cursor on `EOF`, and it does not return `Binary (Binary a + b) * c`. -/
theorem parse_plus_star (a b c p st eof : Token) (r : List (Token × String))
    (ha : a.m_type.isLiteral = true) (hb : b.m_type.isLiteral = true)
    (hc : c.m_type.isLiteral = true) (hp : p.m_type = TokenType.PLUS)
    (hst : st.m_type = TokenType.STAR) (heof : eof.m_type = TokenType.EOF) :
    parse [a, p, b, st, c, eof] { current := 0, reports := r }
        = Outcome.ok (some (Expr.Binary (lit a) p (Expr.Binary (lit b) st (lit c))))
            { current := 5, reports := r }
      ∧ ∀ s1 : State, parse [a, p, b, st, c, eof] { current := 0, reports := r }
          ≠ Outcome.ok (some (Expr.Binary (Expr.Binary (lit a) p (lit b)) st (lit c))) s1 := by
  have g0 : [a, p, b, st, c, eof][(State.mk 0 r).current]? = some a := rfl
  have g1 : [a, p, b, st, c, eof][(State.mk 1 r).current]? = some p := rfl
  have g2 : [a, p, b, st, c, eof][(State.mk 2 r).current]? = some b := rfl
  have g3 : [a, p, b, st, c, eof][(State.mk 3 r).current]? = some st := rfl
  have g4 : [a, p, b, st, c, eof][(State.mk 4 r).current]? = some c := rfl
  have g5 : [a, p, b, st, c, eof][(State.mk 5 r).current]? = some eof := rfl
  have f0 : factor [a, p, b, st, c, eof] 46 ⟨0, r⟩ = Outcome.ok (lit a) ⟨1, r⟩ :=
    factor_of_unary (unary_literal 43 g0 ha) g1 (by simp [hp])
  have f2 : factor [a, p, b, st, c, eof] 45 ⟨2, r⟩
      = Outcome.ok (Expr.Binary (lit b) st (lit c)) ⟨5, r⟩ := by
    rw [factor_succ, bind_ok (unary_literal 42 g2 hb), factorLoop_step 43 _ g3 (by simp [hst]),
      bind_ok (unary_literal 41 g4 hc), factorLoop_stop 42 _ g5 (by simp [heof])]
  have t0 : term [a, p, b, st, c, eof] 47 ⟨0, r⟩
      = Outcome.ok (Expr.Binary (lit a) p (Expr.Binary (lit b) st (lit c))) ⟨5, r⟩ := by
    rw [term_succ, bind_ok f0, termLoop_step 45 _ g1 (by simp [hp]), bind_ok f2,
      termLoop_stop 44 _ g5 (by simp [heof])]
  have hparse := parse_of_term_ok t0 rfl g5 heof
  refine ⟨hparse, fun s1 hwrong => ?_⟩
  rw [hparse] at hwrong
  obtain ⟨v, hv⟩ := lit_eq_Literal a
  simp [hv] at hwrong

theorem parse_plus_star_witness :
    parse [num 1, tk TokenType.PLUS "+", num 2, tk TokenType.STAR "*", num 3, tk TokenType.EOF ""]
        { current := 0, reports := [] }
      = Outcome.ok (some (Expr.Binary (lit (num 1)) (tk TokenType.PLUS "+")
          (Expr.Binary (lit (num 2)) (tk TokenType.STAR "*") (lit (num 3)))))
          { current := 5, reports := [] } :=
  (parse_plus_star (num 1) (num 2) (num 3) (tk TokenType.PLUS "+") (tk TokenType.STAR "*")
    (tk TokenType.EOF "") [] rfl rfl rfl rfl rfl rfl).1

theorem left_assoc_factor (a b c o1 o2 eof : Token) (r : List (Token × String))
    (ha : a.m_type.isLiteral = true) (hb : b.m_type.isLiteral = true)
    (hc : c.m_type.isLiteral = true) (heof : eof.m_type = TokenType.EOF)
    (h1 : o1.m_type ∈ factorOps) (h2 : o2.m_type ∈ factorOps) :
    parse [a, o1, b, o2, c, eof] { current := 0, reports := r }
      = Outcome.ok (some (Expr.Binary (Expr.Binary (lit a) o1 (lit b)) o2 (lit c)))
          { current := 5, reports := r } := by
  have g0 : [a, o1, b, o2, c, eof][(State.mk 0 r).current]? = some a := rfl
  have g1 : [a, o1, b, o2, c, eof][(State.mk 1 r).current]? = some o1 := rfl
  have g2 : [a, o1, b, o2, c, eof][(State.mk 2 r).current]? = some b := rfl
  have g3 : [a, o1, b, o2, c, eof][(State.mk 3 r).current]? = some o2 := rfl
  have g4 : [a, o1, b, o2, c, eof][(State.mk 4 r).current]? = some c := rfl
  have g5 : [a, o1, b, o2, c, eof][(State.mk 5 r).current]? = some eof := rfl
  have f0 : factor [a, o1, b, o2, c, eof] 46 ⟨0, r⟩
      = Outcome.ok (Expr.Binary (Expr.Binary (lit a) o1 (lit b)) o2 (lit c)) ⟨5, r⟩ := by
    rw [factor_succ, bind_ok (unary_literal 43 g0 ha), factorLoop_step 44 _ g1 h1,
      bind_ok (unary_literal 42 g2 hb), factorLoop_step 43 _ g3 h2,
      bind_ok (unary_literal 41 g4 hc), factorLoop_stop 42 _ g5 (Or.inl heof)]
  exact parse_of_factor_ok f0 rfl g5 heof

theorem left_assoc_term (a b c o1 o2 eof : Token) (r : List (Token × String))
    (ha : a.m_type.isLiteral = true) (hb : b.m_type.isLiteral = true)
    (hc : c.m_type.isLiteral = true) (heof : eof.m_type = TokenType.EOF)
    (h1 : o1.m_type ∈ termOps) (h2 : o2.m_type ∈ termOps) :
    parse [a, o1, b, o2, c, eof] { current := 0, reports := r }
      = Outcome.ok (some (Expr.Binary (Expr.Binary (lit a) o1 (lit b)) o2 (lit c)))
          { current := 5, reports := r } := by
  have g0 : [a, o1, b, o2, c, eof][(State.mk 0 r).current]? = some a := rfl
  have g1 : [a, o1, b, o2, c, eof][(State.mk 1 r).current]? = some o1 := rfl
  have g2 : [a, o1, b, o2, c, eof][(State.mk 2 r).current]? = some b := rfl
  have g3 : [a, o1, b, o2, c, eof][(State.mk 3 r).current]? = some o2 := rfl
  have g4 : [a, o1, b, o2, c, eof][(State.mk 4 r).current]? = some c := rfl
  have g5 : [a, o1, b, o2, c, eof][(State.mk 5 r).current]? = some eof := rfl
  have f0 : factor [a, o1, b, o2, c, eof] 46 ⟨0, r⟩ = Outcome.ok (lit a) ⟨1, r⟩ :=
    factor_of_unary (unary_literal 43 g0 ha) g1 (stop_of_mem h1 (by decide))
  have f2 : factor [a, o1, b, o2, c, eof] 45 ⟨2, r⟩ = Outcome.ok (lit b) ⟨3, r⟩ :=
    factor_of_unary (unary_literal 42 g2 hb) g3 (stop_of_mem h2 (by decide))
  have f4 : factor [a, o1, b, o2, c, eof] 44 ⟨4, r⟩ = Outcome.ok (lit c) ⟨5, r⟩ :=
    factor_of_unary (unary_literal 41 g4 hc) g5 (Or.inl heof)
  have t0 : term [a, o1, b, o2, c, eof] 47 ⟨0, r⟩
      = Outcome.ok (Expr.Binary (Expr.Binary (lit a) o1 (lit b)) o2 (lit c)) ⟨5, r⟩ := by
    rw [term_succ, bind_ok f0, termLoop_step 45 _ g1 h1, bind_ok f2,
      termLoop_step 44 _ g3 h2, bind_ok f4, termLoop_stop 43 _ g5 (Or.inl heof)]
  exact parse_of_term_ok t0 rfl g5 heof

theorem left_assoc_comparison (a b c o1 o2 eof : Token) (r : List (Token × String))
    (ha : a.m_type.isLiteral = true) (hb : b.m_type.isLiteral = true)
    (hc : c.m_type.isLiteral = true) (heof : eof.m_type = TokenType.EOF)
    (h1 : o1.m_type ∈ comparisonOps) (h2 : o2.m_type ∈ comparisonOps) :
    parse [a, o1, b, o2, c, eof] { current := 0, reports := r }
      = Outcome.ok (some (Expr.Binary (Expr.Binary (lit a) o1 (lit b)) o2 (lit c)))
          { current := 5, reports := r } := by
  have g0 : [a, o1, b, o2, c, eof][(State.mk 0 r).current]? = some a := rfl
  have g1 : [a, o1, b, o2, c, eof][(State.mk 1 r).current]? = some o1 := rfl
  have g2 : [a, o1, b, o2, c, eof][(State.mk 2 r).current]? = some b := rfl
  have g3 : [a, o1, b, o2, c, eof][(State.mk 3 r).current]? = some o2 := rfl
  have g4 : [a, o1, b, o2, c, eof][(State.mk 4 r).current]? = some c := rfl
  have g5 : [a, o1, b, o2, c, eof][(State.mk 5 r).current]? = some eof := rfl
  have t0 : term [a, o1, b, o2, c, eof] 47 ⟨0, r⟩ = Outcome.ok (lit a) ⟨1, r⟩ :=
    term_of_factor (factor_of_unary (unary_literal 43 g0 ha) g1 (stop_of_mem h1 (by decide)))
      g1 (stop_of_mem h1 (by decide))
  have t2 : term [a, o1, b, o2, c, eof] 46 ⟨2, r⟩ = Outcome.ok (lit b) ⟨3, r⟩ :=
    term_of_factor (factor_of_unary (unary_literal 42 g2 hb) g3 (stop_of_mem h2 (by decide)))
      g3 (stop_of_mem h2 (by decide))
  have t4 : term [a, o1, b, o2, c, eof] 45 ⟨4, r⟩ = Outcome.ok (lit c) ⟨5, r⟩ :=
    term_of_factor (factor_of_unary (unary_literal 41 g4 hc) g5 (Or.inl heof))
      g5 (Or.inl heof)
  have c0 : comparison [a, o1, b, o2, c, eof] 48 ⟨0, r⟩
      = Outcome.ok (Expr.Binary (Expr.Binary (lit a) o1 (lit b)) o2 (lit c)) ⟨5, r⟩ := by
    rw [comparison_succ, bind_ok t0, comparisonLoop_step 46 _ g1 h1, bind_ok t2,
      comparisonLoop_step 45 _ g3 h2, bind_ok t4, comparisonLoop_stop 44 _ g5 (Or.inl heof)]
  exact parse_of_comparison_ok c0 rfl g5 heof

theorem left_assoc_equality (a b c o1 o2 eof : Token) (r : List (Token × String))
    (ha : a.m_type.isLiteral = true) (hb : b.m_type.isLiteral = true)
    (hc : c.m_type.isLiteral = true) (heof : eof.m_type = TokenType.EOF)
    (h1 : o1.m_type ∈ equalityOps) (h2 : o2.m_type ∈ equalityOps) :
    parse [a, o1, b, o2, c, eof] { current := 0, reports := r }
      = Outcome.ok (some (Expr.Binary (Expr.Binary (lit a) o1 (lit b)) o2 (lit c)))
          { current := 5, reports := r } := by
  have g0 : [a, o1, b, o2, c, eof][(State.mk 0 r).current]? = some a := rfl
  have g1 : [a, o1, b, o2, c, eof][(State.mk 1 r).current]? = some o1 := rfl
  have g2 : [a, o1, b, o2, c, eof][(State.mk 2 r).current]? = some b := rfl
  have g3 : [a, o1, b, o2, c, eof][(State.mk 3 r).current]? = some o2 := rfl
  have g4 : [a, o1, b, o2, c, eof][(State.mk 4 r).current]? = some c := rfl
  have g5 : [a, o1, b, o2, c, eof][(State.mk 5 r).current]? = some eof := rfl
  have c0 : comparison [a, o1, b, o2, c, eof] 48 ⟨0, r⟩ = Outcome.ok (lit a) ⟨1, r⟩ :=
    comparison_of_term
      (term_of_factor (factor_of_unary (unary_literal 43 g0 ha) g1 (stop_of_mem h1 (by decide)))
        g1 (stop_of_mem h1 (by decide)))
      g1 (stop_of_mem h1 (by decide))
  have c2 : comparison [a, o1, b, o2, c, eof] 47 ⟨2, r⟩ = Outcome.ok (lit b) ⟨3, r⟩ :=
    comparison_of_term
      (term_of_factor (factor_of_unary (unary_literal 42 g2 hb) g3 (stop_of_mem h2 (by decide)))
        g3 (stop_of_mem h2 (by decide)))
      g3 (stop_of_mem h2 (by decide))
  have c4 : comparison [a, o1, b, o2, c, eof] 46 ⟨4, r⟩ = Outcome.ok (lit c) ⟨5, r⟩ :=
    comparison_of_term
      (term_of_factor (factor_of_unary (unary_literal 41 g4 hc) g5 (Or.inl heof))
        g5 (Or.inl heof))
      g5 (Or.inl heof)
  have e0 : equality [a, o1, b, o2, c, eof] 49 ⟨0, r⟩
      = Outcome.ok (Expr.Binary (Expr.Binary (lit a) o1 (lit b)) o2 (lit c)) ⟨5, r⟩ := by
    rw [equality_succ, bind_ok c0, equalityLoop_step 47 _ g1 h1, bind_ok c2,
      equalityLoop_step 46 _ g3 h2, bind_ok c4, equalityLoop_stop 45 _ g5 (Or.inl heof)]
  exact parse_of_equality_ok e0 rfl

/-- C2 (left-associativity). For all literal tokens `a`, `b`, `c` and any two
operator tokens `o1`, `o2` of one binary level (both equality operators, both
comparison operators, both term operators or both factor operators), `parse` on
`[a, o1, b, o2, c, EOF]` returns `Binary (Binary (lit a) o1 (lit b)) o2 (lit c)`
with the cursor on `EOF`, and does not return the right-nested tree. The case
`o1 = o2 = MINUS` is `a - b - c`. -/
theorem parse_left_assoc (a b c o1 o2 eof : Token) (r : List (Token × String))
    (ha : a.m_type.isLiteral = true) (hb : b.m_type.isLiteral = true)
    (hc : c.m_type.isLiteral = true) (heof : eof.m_type = TokenType.EOF)
    (hlevel : (o1.m_type ∈ equalityOps ∧ o2.m_type ∈ equalityOps)
      ∨ (o1.m_type ∈ comparisonOps ∧ o2.m_type ∈ comparisonOps)
      ∨ (o1.m_type ∈ termOps ∧ o2.m_type ∈ termOps)
      ∨ (o1.m_type ∈ factorOps ∧ o2.m_type ∈ factorOps)) :
    parse [a, o1, b, o2, c, eof] { current := 0, reports := r }
        = Outcome.ok (some (Expr.Binary (Expr.Binary (lit a) o1 (lit b)) o2 (lit c)))
            { current := 5, reports := r }
      ∧ ∀ s1 : State, parse [a, o1, b, o2, c, eof] { current := 0, reports := r }
          ≠ Outcome.ok (some (Expr.Binary (lit a) o1 (Expr.Binary (lit b) o2 (lit c)))) s1 := by
  have hparse : parse [a, o1, b, o2, c, eof] { current := 0, reports := r }
      = Outcome.ok (some (Expr.Binary (Expr.Binary (lit a) o1 (lit b)) o2 (lit c)))
          { current := 5, reports := r } := by
    rcases hlevel with ⟨h1, h2⟩ | ⟨h1, h2⟩ | ⟨h1, h2⟩ | ⟨h1, h2⟩
    · exact left_assoc_equality a b c o1 o2 eof r ha hb hc heof h1 h2
    · exact left_assoc_comparison a b c o1 o2 eof r ha hb hc heof h1 h2
    · exact left_assoc_term a b c o1 o2 eof r ha hb hc heof h1 h2
    · exact left_assoc_factor a b c o1 o2 eof r ha hb hc heof h1 h2
  refine ⟨hparse, fun s1 hwrong => ?_⟩
  rw [hparse] at hwrong
  obtain ⟨v, hv⟩ := lit_eq_Literal a
  simp [hv] at hwrong

theorem parse_left_assoc_witness :
    parse [num 1, tk TokenType.MINUS "-", num 2, tk TokenType.MINUS "-", num 3,
        tk TokenType.EOF ""] { current := 0, reports := [] }
      = Outcome.ok (some (Expr.Binary (Expr.Binary (lit (num 1)) (tk TokenType.MINUS "-")
          (lit (num 2))) (tk TokenType.MINUS "-") (lit (num 3))))
          { current := 5, reports := [] } :=
  (parse_left_assoc (num 1) (num 2) (num 3) (tk TokenType.MINUS "-") (tk TokenType.MINUS "-")
    (tk TokenType.EOF "") [] rfl rfl rfl rfl (Or.inr (Or.inr (Or.inl (by decide))))).1

/-! ## Grouping and prefix operators -/

theorem Grouping_ne_self (e : Expr) : Expr.Grouping e ≠ e := by
  intro h
  have hs := congrArg sizeOf h
  simp at hs

theorem primary_grouping {m_tokens : List Token} {n i j : Nat} {r r1 : List (Token × String)}
    {lp rp : Token} {e : Expr} (hi : m_tokens[i]? = some lp)
    (hlp : lp.m_type = TokenType.LEFT_PAREN)
    (hx : expression m_tokens n { current := i + 1, reports := r }
      = Outcome.ok e { current := j, reports := r1 })
    (hj : m_tokens[j]? = some rp) (hrp : rp.m_type = TokenType.RIGHT_PAREN) :
    primary m_tokens (n + 1) { current := i, reports := r }
      = Outcome.ok (Expr.Grouping e) { current := j + 1, reports := r1 } := by
  have hi1 : m_tokens[(State.mk i r).current]? = some lp := hi
  have hj1 : m_tokens[(State.mk j r1).current]? = some rp := hj
  rw [primary_paren n hi1 hlp, bind_ok hx,
    bind_ok (consume_eq_ok n hj1 TokenType.RIGHT_PAREN _ (by simp [hrp]) hrp)]
  rfl

/-- C3 (grouping is preserved). For all literal tokens `a`, `b`, `parse` on
`[LEFT_PAREN, a, PLUS, b, RIGHT_PAREN, EOF]` returns
`Grouping (Binary (lit a) PLUS (lit b))`; and whenever the token at index `i` is
`LEFT_PAREN`, `expression` started at `i + 1` returns `e` with the cursor at
`j`, and the token at `j` is `RIGHT_PAREN`, `primary` started at `i` returns
`Grouping e`, not `e`, with the cursor at `j + 1`. -/
theorem grouping_preserved :
    (∀ (a b lp p rp eof : Token) (r : List (Token × String)),
      a.m_type.isLiteral = true → b.m_type.isLiteral = true →
      lp.m_type = TokenType.LEFT_PAREN → p.m_type = TokenType.PLUS →
      rp.m_type = TokenType.RIGHT_PAREN → eof.m_type = TokenType.EOF →
      parse [lp, a, p, b, rp, eof] { current := 0, reports := r }
        = Outcome.ok (some (Expr.Grouping (Expr.Binary (lit a) p (lit b))))
            { current := 5, reports := r })
    ∧ (∀ (m_tokens : List Token) (n i j : Nat) (r r1 : List (Token × String))
        (lp rp : Token) (e : Expr),
      m_tokens[i]? = some lp → lp.m_type = TokenType.LEFT_PAREN →
      expression m_tokens n { current := i + 1, reports := r }
        = Outcome.ok e { current := j, reports := r1 } →
      m_tokens[j]? = some rp → rp.m_type = TokenType.RIGHT_PAREN →
      primary m_tokens (n + 1) { current := i, reports := r }
          = Outcome.ok (Expr.Grouping e) { current := j + 1, reports := r1 }
        ∧ primary m_tokens (n + 1) { current := i, reports := r }
          ≠ Outcome.ok e { current := j + 1, reports := r1 }) := by
  constructor
  · intro a b lp p rp eof r ha hb hlp hp hrp heof
    have g0 : [lp, a, p, b, rp, eof][(State.mk 0 r).current]? = some lp := rfl
    have g1 : [lp, a, p, b, rp, eof][(State.mk 1 r).current]? = some a := rfl
    have g2 : [lp, a, p, b, rp, eof][(State.mk 2 r).current]? = some p := rfl
    have g3 : [lp, a, p, b, rp, eof][(State.mk 3 r).current]? = some b := rfl
    have g4 : [lp, a, p, b, rp, eof][(State.mk 4 r).current]? = some rp := rfl
    have g5 : [lp, a, p, b, rp, eof][(State.mk 5 r).current]? = some eof := rfl
    have f1 : factor [lp, a, p, b, rp, eof] 39 ⟨1, r⟩ = Outcome.ok (lit a) ⟨2, r⟩ :=
      factor_of_unary (unary_literal 36 g1 ha) g2 (by simp [hp])
    have f3 : factor [lp, a, p, b, rp, eof] 38 ⟨3, r⟩ = Outcome.ok (lit b) ⟨4, r⟩ :=
      factor_of_unary (unary_literal 35 g3 hb) g4 (by simp [hrp])
    have t1 : term [lp, a, p, b, rp, eof] 40 ⟨1, r⟩
        = Outcome.ok (Expr.Binary (lit a) p (lit b)) ⟨4, r⟩ := by
      rw [term_succ, bind_ok f1, termLoop_step 38 _ g2 (by simp [hp]), bind_ok f3,
        termLoop_stop 37 _ g4 (by simp [hrp])]
    have x1 : expression [lp, a, p, b, rp, eof] 43 ⟨1, r⟩
        = Outcome.ok (Expr.Binary (lit a) p (lit b)) ⟨4, r⟩ := by
      rw [expression_succ]
      exact equality_of_comparison (comparison_of_term t1 g4 (by simp [hrp])) g4
        (by simp [hrp])
    have p0 : primary [lp, a, p, b, rp, eof] 44 ⟨0, r⟩
        = Outcome.ok (Expr.Grouping (Expr.Binary (lit a) p (lit b))) ⟨5, r⟩ :=
      primary_grouping g0 hlp x1 g4 hrp
    have u0 : unary [lp, a, p, b, rp, eof] 45 ⟨0, r⟩
        = Outcome.ok (Expr.Grouping (Expr.Binary (lit a) p (lit b))) ⟨5, r⟩ := by
      rw [unary_operand 44 g0 (by simp [hlp]) (by simp [hlp]), p0]
    exact parse_of_unary_ok u0 rfl g5 heof
  · intro m_tokens n i j r r1 lp rp e hi hlp hx hj hrp
    have hp := primary_grouping hi hlp hx hj hrp
    refine ⟨hp, fun hwrong => ?_⟩
    rw [hp] at hwrong
    simp at hwrong
    exact Grouping_ne_self e hwrong

theorem grouping_preserved_witness :
    parse [tk TokenType.LEFT_PAREN "(", num 1, tk TokenType.PLUS "+", num 2,
        tk TokenType.RIGHT_PAREN ")", tk TokenType.EOF ""] { current := 0, reports := [] }
      = Outcome.ok (some (Expr.Grouping
          (Expr.Binary (lit (num 1)) (tk TokenType.PLUS "+") (lit (num 2)))))
          { current := 5, reports := [] }
    ∧ primary [tk TokenType.LEFT_PAREN "(", num 7, tk TokenType.RIGHT_PAREN ")",
        tk TokenType.EOF ""] (7 + 1) { current := 0, reports := [] }
      = Outcome.ok (Expr.Grouping (Expr.Literal (Value.number 7)))
          { current := 2 + 1, reports := [] } :=
  ⟨grouping_preserved.1 (num 1) (num 2) (tk TokenType.LEFT_PAREN "(") (tk TokenType.PLUS "+")
      (tk TokenType.RIGHT_PAREN ")") (tk TokenType.EOF "") [] rfl rfl rfl rfl rfl rfl,
    (grouping_preserved.2 [tk TokenType.LEFT_PAREN "(", num 7, tk TokenType.RIGHT_PAREN ")",
      tk TokenType.EOF ""] 7 0 2 [] [] (tk TokenType.LEFT_PAREN "(")
      (tk TokenType.RIGHT_PAREN ")") (Expr.Literal (Value.number 7)) rfl rfl rfl rfl rfl).1⟩

theorem getElem?_append_cons {α : Type} (pre : List α) (a : α) (rest : List α) :
    (pre ++ a :: rest)[pre.length]? = some a := by
  induction pre with
  | nil => simp
  | cons x xs ih => simpa using ih

theorem getElem?_append_cons_succ {α : Type} (pre : List α) (a b : α) (rest : List α) :
    (pre ++ a :: b :: rest)[pre.length + 1]? = some b := by
  induction pre with
  | nil => simp
  | cons x xs ih => simpa using ih

theorem unary_chain (ops : List Token) :
    ∀ (pre rest : List Token) (a : Token) (n : Nat) (r : List (Token × String)),
      (∀ o ∈ ops, o.m_type = TokenType.BANG ∨ o.m_type = TokenType.MINUS) →
      a.m_type.isLiteral = true →
      unary (pre ++ ops ++ a :: rest) (ops.length + n + 2) { current := pre.length, reports := r }
        = Outcome.ok (ops.foldr Expr.Unary (lit a))
            { current := pre.length + ops.length + 1, reports := r } := by
  induction ops with
  | nil =>
    intro pre rest a n r _ ha
    have h : (pre ++ [] ++ a :: rest)[(State.mk pre.length r).current]? = some a := by
      rw [List.append_nil]
      exact getElem?_append_cons pre a rest
    have hu := unary_literal n h ha
    simpa using hu
  | cons o ops ih =>
    intro pre rest a n r hops ha
    have h : (pre ++ o :: ops ++ a :: rest)[(State.mk pre.length r).current]? = some o := by
      rw [List.append_assoc]
      exact getElem?_append_cons pre o (ops ++ a :: rest)
    have ho := hops o (List.mem_cons_self o ops)
    have hrec := ih (pre ++ [o]) rest a n r
      (fun x hx => hops x (List.mem_cons_of_mem o hx)) ha
    have hts : pre ++ [o] ++ ops ++ a :: rest = pre ++ o :: ops ++ a :: rest := by simp
    rw [hts] at hrec
    have hfuel : (o :: ops).length + n + 2 = (ops.length + n + 2) + 1 := by
      simp only [List.length_cons]; omega
    rw [hfuel, unary_operator _ h ho]
    have hst : State.mk ((State.mk pre.length r).current + 1) (State.mk pre.length r).reports
        = State.mk (pre ++ [o]).length r := by simp
    rw [hst, bind_ok hrec]
    simp [pure_run]
    omega

/-- C4 (unary chaining). For every literal token `a`, `parse` on
`[MINUS, MINUS, a, EOF]` returns `Unary m0 (Unary m1 (lit a))`; and for every
list `ops` of tokens of kind `BANG` or `MINUS` (the empty list included)
followed by a literal token `a` and `EOF`, `parse` returns
`Unary o_1 (Unary o_2 (.. (Unary o_n (lit a))))`, operators in source order, with
the cursor on `EOF`. -/
theorem parse_unary_chain :
    (∀ (m0 m1 a eof : Token) (r : List (Token × String)),
      m0.m_type = TokenType.MINUS → m1.m_type = TokenType.MINUS →
      a.m_type.isLiteral = true → eof.m_type = TokenType.EOF →
      parse [m0, m1, a, eof] { current := 0, reports := r }
        = Outcome.ok (some (Expr.Unary m0 (Expr.Unary m1 (lit a))))
            { current := 3, reports := r })
    ∧ (∀ (ops : List Token) (a eof : Token) (r : List (Token × String)),
      (∀ o ∈ ops, o.m_type = TokenType.BANG ∨ o.m_type = TokenType.MINUS) →
      a.m_type.isLiteral = true → eof.m_type = TokenType.EOF →
      parse (ops ++ [a, eof]) { current := 0, reports := r }
        = Outcome.ok (some (ops.foldr Expr.Unary (lit a)))
            { current := ops.length + 1, reports := r }) := by
  have general : ∀ (ops : List Token) (a eof : Token) (r : List (Token × String)),
      (∀ o ∈ ops, o.m_type = TokenType.BANG ∨ o.m_type = TokenType.MINUS) →
      a.m_type.isLiteral = true → eof.m_type = TokenType.EOF →
      parse (ops ++ [a, eof]) { current := 0, reports := r }
        = Outcome.ok (some (ops.foldr Expr.Unary (lit a)))
            { current := ops.length + 1, reports := r } := by
    intro ops a eof r hops ha heof
    have hu := unary_chain ops [] [eof] a (6 * ops.length + 15) r hops ha
    simp only [List.nil_append, List.length_nil, Nat.zero_add] at hu
    have ht : (ops ++ [a, eof])[(State.mk (ops.length + 1) r).current]? = some eof :=
      getElem?_append_cons_succ ops a eof []
    have hn : ops.length + (6 * ops.length + 15) + 2 + 5 = parseFuel (ops ++ [a, eof]) := by
      simp [parseFuel]; omega
    exact parse_of_unary_ok hu hn ht heof
  refine ⟨?_, general⟩
  intro m0 m1 a eof r h0 h1 ha heof
  have h := general [m0, m1] a eof r (by simp [h0, h1]) ha heof
  simpa using h

theorem parse_unary_chain_witness :
    parse [tk TokenType.MINUS "-", tk TokenType.MINUS "-", num 4, tk TokenType.EOF ""]
        { current := 0, reports := [] }
      = Outcome.ok (some (Expr.Unary (tk TokenType.MINUS "-")
          (Expr.Unary (tk TokenType.MINUS "-") (lit (num 4)))))
          { current := 3, reports := [] }
    ∧ parse ([tk TokenType.BANG "!", tk TokenType.MINUS "-", tk TokenType.BANG "!"]
        ++ [tk TokenType.TRUE "true", tk TokenType.EOF ""]) { current := 0, reports := [] }
      = Outcome.ok (some
          ([tk TokenType.BANG "!", tk TokenType.MINUS "-", tk TokenType.BANG "!"].foldr
            Expr.Unary (lit (tk TokenType.TRUE "true"))))
          { current := [tk TokenType.BANG "!", tk TokenType.MINUS "-",
              tk TokenType.BANG "!"].length + 1, reports := [] } :=
  ⟨parse_unary_chain.1 (tk TokenType.MINUS "-") (tk TokenType.MINUS "-") (num 4)
      (tk TokenType.EOF "") [] rfl rfl rfl rfl,
    parse_unary_chain.2 [tk TokenType.BANG "!", tk TokenType.MINUS "-", tk TokenType.BANG "!"]
      (tk TokenType.TRUE "true") (tk TokenType.EOF "") [] (by decide) rfl rfl⟩

/-! ## The failure path

Every failure of a rule goes through `Parser::error`, which calls itself and
so never returns: no report reaches the sink, nothing is thrown, and the
handler of `parse` is never entered. In the model such a call ends in
`outOfFuel` for every budget. -/

section FailurePath

variable {m_tokens : List Token} {s s1 : State} {t : Token}

theorem primary_no_start_all (h : m_tokens[s.current]? = some t)
    (hl : t.m_type.isLiteral = false) (hk : t.m_type ≠ TokenType.LEFT_PAREN) (n : Nat) :
    primary m_tokens n s = Outcome.outOfFuel := by
  cases n with
  | zero => simp [primary]
  | succ m => exact primary_no_start m h hl hk

theorem unary_no_start_all (h : m_tokens[s.current]? = some t)
    (hl : t.m_type.isLiteral = false) (hk : t.m_type ≠ TokenType.LEFT_PAREN)
    (hb : t.m_type ≠ TokenType.BANG) (hm : t.m_type ≠ TokenType.MINUS) (n : Nat) :
    unary m_tokens n s = Outcome.outOfFuel := by
  cases n with
  | zero => simp [unary]
  | succ m => rw [unary_operand m h hb hm, primary_no_start_all h hl hk]

theorem factor_outOfFuel (hu : ∀ n, unary m_tokens n s = Outcome.outOfFuel) (n : Nat) :
    factor m_tokens n s = Outcome.outOfFuel := by
  cases n with
  | zero => simp [factor]
  | succ m => rw [factor_succ, bind_outOfFuel (hu m)]

theorem term_outOfFuel (hu : ∀ n, factor m_tokens n s = Outcome.outOfFuel) (n : Nat) :
    term m_tokens n s = Outcome.outOfFuel := by
  cases n with
  | zero => simp [term]
  | succ m => rw [term_succ, bind_outOfFuel (hu m)]

theorem comparison_outOfFuel (hu : ∀ n, term m_tokens n s = Outcome.outOfFuel) (n : Nat) :
    comparison m_tokens n s = Outcome.outOfFuel := by
  cases n with
  | zero => simp [comparison]
  | succ m => rw [comparison_succ, bind_outOfFuel (hu m)]

theorem equality_outOfFuel (hu : ∀ n, comparison m_tokens n s = Outcome.outOfFuel) (n : Nat) :
    equality m_tokens n s = Outcome.outOfFuel := by
  cases n with
  | zero => simp [equality]
  | succ m => rw [equality_succ, bind_outOfFuel (hu m)]

theorem expression_outOfFuel (hu : ∀ n, unary m_tokens n s = Outcome.outOfFuel) (n : Nat) :
    expression m_tokens n s = Outcome.outOfFuel := by
  cases n with
  | zero => simp [expression]
  | succ m =>
    rw [expression_succ]
    exact equality_outOfFuel (comparison_outOfFuel (term_outOfFuel (factor_outOfFuel hu))) m

/-- The general half of C6 on the code: at a token that starts no expression
(not a literal, not `LEFT_PAREN`, `BANG` or `MINUS`; `EOF` included),
`expression` reaches `throw error(peek(), "Expect expression.")` and stays in
`Parser::error` for every budget. -/
theorem expression_no_start (h : m_tokens[s.current]? = some t)
    (hl : t.m_type.isLiteral = false) (hk : t.m_type ≠ TokenType.LEFT_PAREN)
    (hb : t.m_type ≠ TokenType.BANG) (hm : t.m_type ≠ TokenType.MINUS) (n : Nat) :
    expression m_tokens n s = Outcome.outOfFuel :=
  expression_outOfFuel (unary_no_start_all h hl hk hb hm) n

theorem parse_outOfFuel (h : ∀ n, expression m_tokens n s = Outcome.outOfFuel) :
    parse m_tokens s = Outcome.outOfFuel := by
  simp [parse, h]

/-- The general half of C7 on the code: after `LEFT_PAREN` and an inner
expression that returned, a token other than `RIGHT_PAREN` sends `consume` into
`Parser::error`; no `Grouping` is built and `primary` does not return. -/
theorem primary_unclosed {n i j : Nat} {r r1 : List (Token × String)} {lp : Token} {e : Expr}
    (hi : m_tokens[i]? = some lp) (hlp : lp.m_type = TokenType.LEFT_PAREN)
    (hx : expression m_tokens n { current := i + 1, reports := r }
      = Outcome.ok e { current := j, reports := r1 })
    (hj : m_tokens[j]? = some t) (ht : t.m_type ≠ TokenType.RIGHT_PAREN) :
    primary m_tokens (n + 1) { current := i, reports := r } = Outcome.outOfFuel := by
  have hi1 : m_tokens[(State.mk i r).current]? = some lp := hi
  have hj1 : m_tokens[(State.mk j r1).current]? = some t := hj
  rw [primary_paren n hi1 hlp, bind_ok hx,
    bind_outOfFuel (consume_eq_outOfFuel n hj1 TokenType.RIGHT_PAREN _ (Or.inr ht))]

end FailurePath

/-- On the empty program `[EOF]` the rule `expression` does not return for any
budget, since `primary` enters `Parser::error`, which calls itself; `parse`
therefore returns neither a tree nor the null result. -/
theorem parse_empty_program_no_result :
    (∀ fuel : Nat, expression [tk TokenType.EOF ""] fuel State.init = Outcome.outOfFuel)
      ∧ parse [tk TokenType.EOF ""] State.init = Outcome.outOfFuel := by
  have h : ∀ fuel : Nat,
      expression [tk TokenType.EOF ""] fuel State.init = Outcome.outOfFuel :=
    fun fuel => expression_no_start (t := tk TokenType.EOF "") rfl rfl (by decide) (by decide)
      (by decide) fuel
  exact ⟨h, parse_outOfFuel h⟩

/-- C6, the code at the failing input `[PLUS, EOF]`: `expression` does not return
for any budget; no `ParseError` is raised, no report reaches the sink and
`parse` does not yield the null result. -/
theorem parse_lone_plus_no_result :
    (∀ fuel : Nat, expression [tk TokenType.PLUS "+", tk TokenType.EOF ""] fuel State.init
        = Outcome.outOfFuel)
      ∧ parse [tk TokenType.PLUS "+", tk TokenType.EOF ""] State.init = Outcome.outOfFuel := by
  have h : ∀ fuel : Nat,
      expression [tk TokenType.PLUS "+", tk TokenType.EOF ""] fuel State.init
        = Outcome.outOfFuel :=
    fun fuel => expression_no_start (t := tk TokenType.PLUS "+") rfl rfl (by decide) (by decide)
      (by decide) fuel
  exact ⟨h, parse_outOfFuel h⟩

/-- C7, the code at the failing input `[LEFT_PAREN, NUMBER 1, PLUS, NUMBER 2, EOF]`:
the inner expression is parsed, then `consume(RIGHT_PAREN, ..)` enters
`Parser::error` at the `EOF` token; for every budget `expression` does not
return, so no `ParseError` is raised and no report reaches the sink. -/
theorem parse_unclosed_paren_no_result :
    (∀ fuel : Nat,
      expression [tk TokenType.LEFT_PAREN "(", num 1, tk TokenType.PLUS "+", num 2,
        tk TokenType.EOF ""] fuel State.init = Outcome.outOfFuel)
      ∧ parse [tk TokenType.LEFT_PAREN "(", num 1, tk TokenType.PLUS "+", num 2,
        tk TokenType.EOF ""] State.init = Outcome.outOfFuel := by
  have g0 : [tk TokenType.LEFT_PAREN "(", num 1, tk TokenType.PLUS "+", num 2,
      tk TokenType.EOF ""][State.init.current]? = some (tk TokenType.LEFT_PAREN "(") := rfl
  have hprim : ∀ m : Nat,
      primary [tk TokenType.LEFT_PAREN "(", num 1, tk TokenType.PLUS "+", num 2,
        tk TokenType.EOF ""] m State.init = Outcome.outOfFuel := by
    intro m
    by_cases hm : m < 9
    · interval_cases m <;> rfl
    · obtain ⟨n, rfl⟩ : ∃ n, m = n + 8 + 1 := ⟨m - 9, by omega⟩
      have g1 : [tk TokenType.LEFT_PAREN "(", num 1, tk TokenType.PLUS "+", num 2,
          tk TokenType.EOF ""][(State.mk 1 []).current]? = some (num 1) := rfl
      have g2 : [tk TokenType.LEFT_PAREN "(", num 1, tk TokenType.PLUS "+", num 2,
          tk TokenType.EOF ""][(State.mk 2 []).current]? = some (tk TokenType.PLUS "+") := rfl
      have g3 : [tk TokenType.LEFT_PAREN "(", num 1, tk TokenType.PLUS "+", num 2,
          tk TokenType.EOF ""][(State.mk 3 []).current]? = some (num 2) := rfl
      have g4 : [tk TokenType.LEFT_PAREN "(", num 1, tk TokenType.PLUS "+", num 2,
          tk TokenType.EOF ""][(State.mk 4 []).current]? = some (tk TokenType.EOF "") := rfl
      have f1 : factor [tk TokenType.LEFT_PAREN "(", num 1, tk TokenType.PLUS "+", num 2,
          tk TokenType.EOF ""] (n + 4) ⟨1, []⟩ = Outcome.ok (lit (num 1)) ⟨2, []⟩ :=
        factor_of_unary (unary_literal (n + 1) g1 rfl) g2 (Or.inr (by decide))
      have f3 : factor [tk TokenType.LEFT_PAREN "(", num 1, tk TokenType.PLUS "+", num 2,
          tk TokenType.EOF ""] (n + 3) ⟨3, []⟩ = Outcome.ok (lit (num 2)) ⟨4, []⟩ :=
        factor_of_unary (unary_literal n g3 rfl) g4 (Or.inl rfl)
      have t1 : term [tk TokenType.LEFT_PAREN "(", num 1, tk TokenType.PLUS "+", num 2,
          tk TokenType.EOF ""] (n + 5) ⟨1, []⟩
          = Outcome.ok (Expr.Binary (lit (num 1)) (tk TokenType.PLUS "+") (lit (num 2)))
              ⟨4, []⟩ := by
        rw [term_succ, bind_ok f1, termLoop_step (n + 3) _ g2 (by decide), bind_ok f3,
          termLoop_stop (n + 2) _ g4 (Or.inl rfl)]
      have x1 : expression [tk TokenType.LEFT_PAREN "(", num 1, tk TokenType.PLUS "+", num 2,
          tk TokenType.EOF ""] (n + 8) ⟨0 + 1, []⟩
          = Outcome.ok (Expr.Binary (lit (num 1)) (tk TokenType.PLUS "+") (lit (num 2)))
              ⟨4, []⟩ := by
        rw [expression_succ]
        exact equality_of_comparison (comparison_of_term t1 g4 (Or.inl rfl)) g4 (Or.inl rfl)
      exact primary_unclosed (t := tk TokenType.EOF "") rfl rfl x1 rfl (by decide)
  have hun : ∀ m : Nat,
      unary [tk TokenType.LEFT_PAREN "(", num 1, tk TokenType.PLUS "+", num 2,
        tk TokenType.EOF ""] m State.init = Outcome.outOfFuel := by
    intro m
    cases m with
    | zero => rfl
    | succ k => rw [unary_operand k g0 (by decide) (by decide), hprim k]
  exact ⟨expression_outOfFuel hun, parse_outOfFuel (expression_outOfFuel hun)⟩

/-- C8, the code at the failing input `consume(RIGHT_PAREN, m)` with the cursor
on the `EOF` token of `[NUMBER 1, EOF]`: `check` is false, `consume` evaluates
`error(peek(), message)`, and `Parser::error` calls itself; for every budget
`consume` does not return, so nothing is thrown and no report is made. -/
theorem consume_mismatch_no_result (fuel : Nat) :
    consume [num 1, tk TokenType.EOF ""] fuel TokenType.RIGHT_PAREN
      "Expect ')' after expression." { current := 1, reports := [] } = Outcome.outOfFuel :=
  consume_eq_outOfFuel (t := tk TokenType.EOF "") fuel rfl _ _ (Or.inl rfl)

/-! ## Contracts of the cursor primitives -/

/-- C9 (contract of `match`). At a cursor inside the token sequence,
`match(k_1..k_n)` returns true iff `check(k_i)` is true for some `i`; when it
returns true the index has grown by exactly one, and when it returns false the
state is unchanged. -/
theorem match_contract (m_tokens : List Token) (s : State) (t : Token) (types : List TokenType)
    (h : m_tokens[s.current]? = some t) :
    ((∃ k ∈ types, check m_tokens k s = Outcome.ok true s) →
        match_ m_tokens types s
          = Outcome.ok true { current := s.current + 1, reports := s.reports })
      ∧ ((¬ ∃ k ∈ types, check m_tokens k s = Outcome.ok true s) →
        match_ m_tokens types s = Outcome.ok false s) := by
  constructor
  · rintro ⟨k, hk, hc⟩
    rw [check_eq h] at hc
    have hb : (!(t.m_type == TokenType.EOF) && t.m_type == k) = true := by
      injection hc
    simp at hb
    exact match_eq_true h types hb.1 (hb.2 ▸ hk)
  · intro hno
    apply match_eq_false h
    by_cases he : t.m_type = TokenType.EOF
    · exact Or.inl he
    · refine Or.inr (fun hmem => hno ⟨t.m_type, hmem, ?_⟩)
      rw [check_eq h]
      simp [he]

theorem match_contract_witness :
    match_ [tk TokenType.PLUS "+", tk TokenType.EOF ""] [TokenType.MINUS, TokenType.PLUS]
        { current := 0, reports := [] }
      = Outcome.ok true { current := 0 + 1, reports := [] }
    ∧ match_ [tk TokenType.PLUS "+", tk TokenType.EOF ""] [TokenType.SLASH, TokenType.STAR]
        { current := 0, reports := [] }
      = Outcome.ok false { current := 0, reports := [] } :=
  ⟨(match_contract [tk TokenType.PLUS "+", tk TokenType.EOF ""] { current := 0, reports := [] }
      (tk TokenType.PLUS "+") [TokenType.MINUS, TokenType.PLUS] rfl).1
      ⟨TokenType.PLUS, by decide, rfl⟩,
    (match_contract [tk TokenType.PLUS "+", tk TokenType.EOF ""] { current := 0, reports := [] }
      (tk TokenType.PLUS "+") [TokenType.SLASH, TokenType.STAR] rfl).2 (by decide)⟩

/-- C10 as stated fails at end: on `[NUMBER 1, EOF]` with the cursor on `EOF`,
`peek` returns the `EOF` token but `advance` returns the `NUMBER` token before
it. -/
theorem advance_at_end_not_peek :
    peek [num 1, tk TokenType.EOF ""] { current := 1, reports := [] }
        = Outcome.ok (tk TokenType.EOF "") { current := 1, reports := [] }
      ∧ advance [num 1, tk TokenType.EOF ""] { current := 1, reports := [] }
        = Outcome.ok (num 1) { current := 1, reports := [] }
      ∧ num 1 ≠ tk TokenType.EOF "" := by
  decide

/-- C10 as amended. At a cursor that is not at end, `advance` returns the token
that was at the cursor index before the call, the one `peek` returned; at end,
with index `i ≥ 1`, it returns the token at index `i - 1` and the index stays
`i`. -/
theorem advance_returns (m_tokens : List Token) (s : State) (t : Token)
    (h : m_tokens[s.current]? = some t) :
    (t.m_type ≠ TokenType.EOF →
        peek m_tokens s = Outcome.ok t s
          ∧ advance m_tokens s
            = Outcome.ok t { current := s.current + 1, reports := s.reports })
      ∧ (t.m_type = TokenType.EOF → ∀ p : Token, 0 < s.current →
          m_tokens[s.current - 1]? = some p → advance m_tokens s = Outcome.ok p s) := by
  constructor
  · intro he
    exact ⟨peek_eq h, advance_eq_of_not_end h he⟩
  · intro he p hpos hp
    rw [advance_eq_of_end h he]
    have hne : s.current ≠ 0 := by omega
    simp [previous, hne, hp]

theorem advance_returns_witness :
    (peek [num 1, tk TokenType.EOF ""] { current := 0, reports := [] }
        = Outcome.ok (num 1) { current := 0, reports := [] }
      ∧ advance [num 1, tk TokenType.EOF ""] { current := 0, reports := [] }
        = Outcome.ok (num 1) { current := 0 + 1, reports := [] })
    ∧ advance [num 1, tk TokenType.EOF ""] { current := 1, reports := [] }
        = Outcome.ok (num 1) { current := 1, reports := [] } :=
  ⟨(advance_returns [num 1, tk TokenType.EOF ""] { current := 0, reports := [] } (num 1)
      rfl).1 (by decide),
    (advance_returns [num 1, tk TokenType.EOF ""] { current := 1, reports := [] }
      (tk TokenType.EOF "") rfl).2 rfl (num 1) (by decide) rfl⟩

/-! ## Cursor movement -/

theorem previous_state {m_tokens : List Token} {s s1 : State} {p : Token}
    (h : previous m_tokens s = Outcome.ok p s1) : s1 = s := by
  unfold previous at h
  split at h
  · cases h
  · split at h
    · injection h with _ h2
      exact h2.symm
    · cases h

/-- Index movement of `advance` at a cursor inside a token sequence whose last
token is `EOF`: the index goes from `i` to `i + 1` when the token at `i` is not
`EOF` and stays `i` when it is, and `advance` then returns `previous()` at that
index; the index never decreases and never passes the last token. -/
theorem advance_index (m_tokens : List Token) (s : State) (t eof : Token)
    (h : m_tokens[s.current]? = some t)
    (hlast : m_tokens[m_tokens.length - 1]? = some eof) (heof : eof.m_type = TokenType.EOF) :
    advance m_tokens s
        = previous m_tokens
            (State.mk (if t.m_type = TokenType.EOF then s.current else s.current + 1) s.reports)
      ∧ (∀ (p : Token) (s1 : State), advance m_tokens s = Outcome.ok p s1 →
          s1 = State.mk (if t.m_type = TokenType.EOF then s.current else s.current + 1)
            s.reports)
      ∧ (t.m_type ≠ TokenType.EOF →
          advance m_tokens s = Outcome.ok t (State.mk (s.current + 1) s.reports))
      ∧ (t.m_type = TokenType.EOF → ∀ p : Token, 0 < s.current →
          m_tokens[s.current - 1]? = some p → advance m_tokens s = Outcome.ok p s)
      ∧ s.current ≤ (if t.m_type = TokenType.EOF then s.current else s.current + 1)
      ∧ (if t.m_type = TokenType.EOF then s.current else s.current + 1)
          ≤ m_tokens.length - 1 := by
  have hlt : s.current < m_tokens.length := by
    rcases Nat.lt_or_ge s.current m_tokens.length with hl | hl
    · exact hl
    · rw [List.getElem?_eq_none hl] at h
      cases h
  by_cases he : t.m_type = TokenType.EOF
  · simp only [he, if_true]
    refine ⟨advance_eq_of_end h he, ?_, fun hne => absurd rfl hne, ?_, le_refl _, by omega⟩
    · intro p s1 hadv
      rw [advance_eq_of_end h he] at hadv
      exact previous_state hadv
    · intro _ p hpos hp
      rw [advance_eq_of_end h he]
      have hne : s.current ≠ 0 := by omega
      simp [previous, hne, hp]
  · simp only [he, if_false]
    have hadv := advance_eq_of_not_end h he
    have hnl : s.current ≠ m_tokens.length - 1 := by
      intro hc
      rw [hc, hlast] at h
      injection h with h
      exact he (h ▸ heof)
    refine ⟨?_, ?_, fun _ => hadv, fun hc => hc.elim, by omega, by omega⟩
    · rw [hadv]
      exact (previous_succ h).symm
    · intro p s1 hp
      rw [hadv] at hp
      injection hp with _ h2
      exact h2.symm

theorem advance_index_witness :
    advance [num 1, tk TokenType.EOF ""] { current := 0, reports := [] }
        = Outcome.ok (num 1) (State.mk (0 + 1) [])
      ∧ advance [num 1, tk TokenType.EOF ""] { current := 1, reports := [] }
        = Outcome.ok (num 1) { current := 1, reports := [] } :=
  ⟨(advance_index [num 1, tk TokenType.EOF ""] { current := 0, reports := [] } (num 1)
      (tk TokenType.EOF "") rfl rfl rfl).2.2.1 (by decide),
    (advance_index [num 1, tk TokenType.EOF ""] { current := 1, reports := [] }
      (tk TokenType.EOF "") (tk TokenType.EOF "") rfl rfl rfl).2.2.2.1 rfl (num 1)
      (by decide) rfl⟩

/-! ## Resynchronisation -/

theorem synchronizeLoop_stop {m_tokens : List Token} {s : State} {t p : Token} (n : Nat)
    (h : m_tokens[s.current]? = some t) (hpos : 0 < s.current)
    (hp : m_tokens[s.current - 1]? = some p)
    (hb : isBoundary m_tokens s.current = true) :
    synchronizeLoop m_tokens (n + 1) s = Outcome.ok () s := by
  have hne : s.current ≠ 0 := by omega
  by_cases he : t.m_type = TokenType.EOF
  · simp [synchronizeLoop, bind_run, M.bind, pure_run, is_at_end_eq h, he]
  · by_cases hs : p.m_type = TokenType.SEMICOLON
    · simp [synchronizeLoop, bind_run, M.bind, pure_run, is_at_end_eq h, he, previous, hne, hp,
        hs]
    · have hk : t.m_type.startsStatement = true := by
        simpa [isBoundary, kindAt, h, hp, he, hs, hpos] using hb
      cases hty : t.m_type <;> simp [hty, TokenType.startsStatement] at hk <;>
        simp [synchronizeLoop, bind_run, M.bind, pure_run, is_at_end_eq h, previous, hne, hp,
          hs, peek_eq h, hty]

theorem synchronizeLoop_step {m_tokens : List Token} {s : State} {t p : Token} (n : Nat)
    (h : m_tokens[s.current]? = some t) (hpos : 0 < s.current)
    (hp : m_tokens[s.current - 1]? = some p)
    (hb : isBoundary m_tokens s.current = false) :
    synchronizeLoop m_tokens (n + 1) s
      = synchronizeLoop m_tokens n { s with current := s.current + 1 } := by
  have hne : s.current ≠ 0 := by omega
  simp [isBoundary, kindAt, h, hp, hpos] at hb
  obtain ⟨⟨he, hs⟩, hk⟩ := hb
  have hadv := advance_eq_of_not_end h he
  cases hty : t.m_type <;> simp [hty, TokenType.startsStatement] at hk he <;>
    simp [synchronizeLoop, bind_run, M.bind, pure_run, is_at_end_eq h, previous, hne, hp,
      hs, peek_eq h, hty, hadv]

theorem getElem?_some_of_lt {α : Type} (l : List α) {k : Nat} (h : k < l.length) :
    ∃ x, l[k]? = some x :=
  ⟨l[k], List.getElem?_eq_getElem h⟩

theorem lt_length_of_getElem? {α : Type} {l : List α} {k : Nat} {x : α}
    (h : l[k]? = some x) : k < l.length := by
  rcases Nat.lt_or_ge k l.length with hl | hl
  · exact hl
  · rw [List.getElem?_eq_none hl] at h
    cases h

theorem synchronizeLoop_run (m_tokens : List Token) (r : List (Token × String)) :
    ∀ (d k fuel : Nat), 0 < k → d + 1 ≤ fuel → k + d < m_tokens.length →
      isBoundary m_tokens (k + d) = true →
      (∀ m, k ≤ m → m < k + d → isBoundary m_tokens m = false) →
      synchronizeLoop m_tokens fuel { current := k, reports := r }
        = Outcome.ok () { current := k + d, reports := r } := by
  intro d
  induction d with
  | zero =>
    intro k fuel hk hfuel hlen hb _
    obtain ⟨n, rfl⟩ : ∃ n, fuel = n + 1 := ⟨fuel - 1, by omega⟩
    obtain ⟨t, ht⟩ := getElem?_some_of_lt m_tokens (k := k) (by omega)
    obtain ⟨p, hp⟩ := getElem?_some_of_lt m_tokens (k := k - 1) (by omega)
    exact synchronizeLoop_stop (s := State.mk k r) n ht hk hp hb
  | succ d ih =>
    intro k fuel hk hfuel hlen hb hmin
    obtain ⟨n, rfl⟩ : ∃ n, fuel = n + 1 := ⟨fuel - 1, by omega⟩
    obtain ⟨t, ht⟩ := getElem?_some_of_lt m_tokens (k := k) (by omega)
    obtain ⟨p, hp⟩ := getElem?_some_of_lt m_tokens (k := k - 1) (by omega)
    rw [synchronizeLoop_step (s := State.mk k r) n ht hk hp (hmin k (le_refl k) (by omega))]
    have hrec := ih (k + 1) n (by omega) (by omega) (by omega)
      (by rw [show k + 1 + d = k + (d + 1) by omega]; exact hb)
      (fun m hm1 hm2 => hmin m (by omega) (by omega))
    rw [show k + 1 + d = k + (d + 1) by omega] at hrec
    exact hrec

theorem synchronize_run (m_tokens : List Token) (i j : Nat) (r : List (Token × String))
    (t : Token) (h : m_tokens[i]? = some t) (hne : t.m_type ≠ TokenType.EOF)
    (hij : i < j) (hlen : j < m_tokens.length) (hb : isBoundary m_tokens j = true)
    (hmin : ∀ m, i < m → m < j → isBoundary m_tokens m = false) :
    synchronize m_tokens { current := i, reports := r }
      = Outcome.ok () { current := j, reports := r } := by
  have hadv := advance_eq_of_not_end (s := State.mk i r) h hne
  have hrun := synchronizeLoop_run m_tokens r (j - (i + 1)) (i + 1) (m_tokens.length + 1)
    (by omega) (by omega) (by omega)
    (by rw [show i + 1 + (j - (i + 1)) = j by omega]; exact hb)
    (fun m hm1 hm2 => hmin m (by omega) (by omega))
  rw [show i + 1 + (j - (i + 1)) = j by omega] at hrun
  simp only [synchronize, bind_run]
  rw [bind_ok hadv]
  exact hrun

/-- Stop position of `synchronize` under explicit hypotheses: on
`[g1, g2, SEMICOLON, IF, ...]` with `g1`, `g2` neither `SEMICOLON` nor `EOF` and
`g2` no statement keyword the cursor ends at index 3; and on a sequence whose
last token is `EOF`, from a start index not at end, at the least stop position
behind the start. -/
theorem synchronize_stop_position_of_last :
    (∀ (g1 g2 semi kw : Token) (rest : List Token) (r : List (Token × String)),
      g1.m_type ≠ TokenType.SEMICOLON → g1.m_type.startsStatement = false →
      g1.m_type ≠ TokenType.EOF →
      g2.m_type ≠ TokenType.SEMICOLON → g2.m_type.startsStatement = false →
      g2.m_type ≠ TokenType.EOF →
      semi.m_type = TokenType.SEMICOLON → kw.m_type = TokenType.IF →
      synchronize (g1 :: g2 :: semi :: kw :: rest) { current := 0, reports := r }
        = Outcome.ok () { current := 3, reports := r })
    ∧ (∀ (m_tokens : List Token) (i : Nat) (r : List (Token × String)) (t eof : Token),
      m_tokens[i]? = some t → t.m_type ≠ TokenType.EOF →
      m_tokens[m_tokens.length - 1]? = some eof → eof.m_type = TokenType.EOF →
      ∃ j, i < j ∧ isBoundary m_tokens j = true
        ∧ (∀ m, i < m → m < j → isBoundary m_tokens m = false)
        ∧ synchronize m_tokens { current := i, reports := r }
          = Outcome.ok () { current := j, reports := r }) := by
  constructor
  · intro g1 g2 semi kw rest r h1 _ h1e h2 h2k h2e hsemi hkw
    apply synchronize_run (g1 :: g2 :: semi :: kw :: rest) 0 3 r g1 rfl h1e (by omega)
      (by simp)
    · simp [isBoundary, kindAt, hsemi]
    · intro m hm1 hm2
      have hm : m = 1 ∨ m = 2 := by omega
      rcases hm with rfl | rfl
      · simp [isBoundary, kindAt, h1, h2e, h2k]
      · simp [isBoundary, kindAt, h2, hsemi, TokenType.startsStatement]
  · intro m_tokens i r t eof h hne hlast heof
    have hlt := lt_length_of_getElem? h
    have hnl : i ≠ m_tokens.length - 1 := by
      intro hc
      rw [← hc, h] at hlast
      injection hlast with hl
      exact hne (hl ▸ heof)
    have hex : ∃ j, i < j ∧ isBoundary m_tokens j = true :=
      ⟨m_tokens.length - 1, by omega, by simp [isBoundary, kindAt, hlast, heof]⟩
    have hspec := Nat.find_spec hex
    have hle : Nat.find hex ≤ m_tokens.length - 1 :=
      Nat.find_min' hex ⟨by omega, by simp [isBoundary, kindAt, hlast, heof]⟩
    have hmin : ∀ m, i < m → m < Nat.find hex → isBoundary m_tokens m = false := by
      intro m hm1 hm2
      have hn := Nat.find_min hex hm2
      simp only [not_and, Bool.not_eq_true] at hn
      exact hn hm1
    exact ⟨Nat.find hex, hspec.1, hspec.2, hmin,
      synchronize_run m_tokens i (Nat.find hex) r t h hne hspec.1 (by omega) hspec.2 hmin⟩

/-- C13, the code at the failing input `[EOF]` with the cursor at index 0:
`synchronize` calls `advance`, which at end leaves `current` at 0 and returns
`previous()`, a read of `m_tokens[current - 1]` before the first token. -/
theorem synchronize_reads_before_first_token :
    previous [tk TokenType.EOF ""] State.init = Outcome.fault
      ∧ advance [tk TokenType.EOF ""] State.init = Outcome.fault
      ∧ synchronize [tk TokenType.EOF ""] State.init = Outcome.fault := by
  decide

/-- C14, the code at the failing input `[RIGHT_PAREN, EOF]`: none of the grammar
rules returns, with a tree or with a failure, for any budget, because `primary`
enters `Parser::error`, which calls itself. -/
theorem rules_do_not_terminate_on_failure (fuel : Nat) :
    expression [tk TokenType.RIGHT_PAREN ")", tk TokenType.EOF ""] fuel State.init
        = Outcome.outOfFuel
      ∧ equality [tk TokenType.RIGHT_PAREN ")", tk TokenType.EOF ""] fuel State.init
        = Outcome.outOfFuel
      ∧ comparison [tk TokenType.RIGHT_PAREN ")", tk TokenType.EOF ""] fuel State.init
        = Outcome.outOfFuel
      ∧ term [tk TokenType.RIGHT_PAREN ")", tk TokenType.EOF ""] fuel State.init
        = Outcome.outOfFuel
      ∧ factor [tk TokenType.RIGHT_PAREN ")", tk TokenType.EOF ""] fuel State.init
        = Outcome.outOfFuel
      ∧ unary [tk TokenType.RIGHT_PAREN ")", tk TokenType.EOF ""] fuel State.init
        = Outcome.outOfFuel
      ∧ primary [tk TokenType.RIGHT_PAREN ")", tk TokenType.EOF ""] fuel State.init
        = Outcome.outOfFuel
      ∧ parse [tk TokenType.RIGHT_PAREN ")", tk TokenType.EOF ""] State.init
        = Outcome.outOfFuel := by
  have g0 : [tk TokenType.RIGHT_PAREN ")", tk TokenType.EOF ""][State.init.current]?
      = some (tk TokenType.RIGHT_PAREN ")") := rfl
  have hp := primary_no_start_all g0 rfl (by decide)
  have hu := unary_no_start_all g0 rfl (by decide) (by decide) (by decide)
  have hf := factor_outOfFuel hu
  have ht := term_outOfFuel hf
  have hc := comparison_outOfFuel ht
  have he := equality_outOfFuel hc
  have hx := expression_outOfFuel hu
  exact ⟨hx fuel, he fuel, hc fuel, ht fuel, hf fuel, hu fuel, hp fuel, parse_outOfFuel hx⟩

/-- C15 on the code: a call of `Parser::error` does not return for any budget,
whatever the token, the message and the state; it reaches neither the sink nor
`return new ParseError()`. -/
theorem Parser_error_does_not_return (fuel : Nat) (token : Token) (message : String)
    (s : State) : error fuel token message s = Outcome.outOfFuel :=
  error_eq fuel token message s

/-! ## Returning calls of the grammar rules -/

section Inversion

variable {m_tokens : List Token} {s s1 s2 : State} {t : Token}

theorem bind_ok_inv {α β : Type} {x : M α} {f : α → M β} {b : β}
    (h : M.bind x f s = Outcome.ok b s2) :
    ∃ a s1, x s = Outcome.ok a s1 ∧ f a s1 = Outcome.ok b s2 := by
  unfold M.bind at h
  split at h
  · next a s1 hx => exact ⟨a, s1, hx, h⟩
  · cases h
  · cases h
  · cases h

theorem match_none (type : TokenType) (types : List TokenType)
    (h : m_tokens[s.current]? = none) :
    match_ m_tokens (type :: types) s = Outcome.fault := by
  simp [match_, anyCheck, check, is_at_end, peek, bind_run, M.bind, h]

theorem EOF_not_mem_ops (l : Level) : TokenType.EOF ∉ l.ops := by
  cases l <;> decide

theorem run_zero (rule : Rule) (s : State) : rule.run m_tokens 0 s = Outcome.outOfFuel := by
  cases rule with
  | expression => simp [Rule.run, expression]
  | binary l => cases l <;> simp [Rule.run, equality, comparison, term, factor]
  | loop l expr =>
    cases l <;> simp [Rule.run, equalityLoop, comparisonLoop, termLoop, factorLoop]
  | unary => simp [Rule.run, unary]
  | primary => simp [Rule.run, primary]

theorem run_binary_succ (l : Level) (n : Nat) (s : State) :
    (Rule.binary l).run m_tokens (n + 1) s
      = M.bind ((Rule.lower l).run m_tokens n) (fun expr => (Rule.loop l expr).run m_tokens n) s := by
  cases l
  · exact equality_succ n s
  · exact comparison_succ n s
  · exact term_succ n s
  · exact factor_succ n s

theorem run_loop_stop (l : Level) (n : Nat) (expr : Expr) (h : m_tokens[s.current]? = some t)
    (hk : t.m_type ∉ l.ops) :
    (Rule.loop l expr).run m_tokens (n + 1) s = Outcome.ok expr s := by
  cases l
  · exact equalityLoop_stop n expr h (Or.inr hk)
  · exact comparisonLoop_stop n expr h (Or.inr hk)
  · exact termLoop_stop n expr h (Or.inr hk)
  · exact factorLoop_stop n expr h (Or.inr hk)

theorem run_loop_step (l : Level) (n : Nat) (expr : Expr) (h : m_tokens[s.current]? = some t)
    (hk : t.m_type ∈ l.ops) :
    (Rule.loop l expr).run m_tokens (n + 1) s
      = M.bind ((Rule.lower l).run m_tokens n)
          (fun right => (Rule.loop l (Expr.Binary expr t right)).run m_tokens n)
          { s with current := s.current + 1 } := by
  cases l
  · exact equalityLoop_step n expr h hk
  · exact comparisonLoop_step n expr h hk
  · exact termLoop_step n expr h hk
  · exact factorLoop_step n expr h hk

theorem run_loop_none (l : Level) (n : Nat) (expr : Expr) (h : m_tokens[s.current]? = none) :
    (Rule.loop l expr).run m_tokens (n + 1) s = Outcome.fault := by
  cases l <;>
    simp [Rule.run, equalityLoop, comparisonLoop, termLoop, factorLoop, bind_run, M.bind,
      match_none _ _ h]

theorem unary_none (n : Nat) (h : m_tokens[s.current]? = none) :
    unary m_tokens (n + 1) s = Outcome.fault := by
  simp [unary, bind_run, M.bind, match_none _ _ h]

theorem primary_none (n : Nat) (h : m_tokens[s.current]? = none) :
    primary m_tokens (n + 1) s = Outcome.fault := by
  simp [primary, bind_run, M.bind, match_none _ _ h]

theorem consume_none (n : Nat) (type : TokenType) (message : String)
    (h : m_tokens[s.current]? = none) :
    consume m_tokens n type message s = Outcome.fault := by
  simp [consume, check, is_at_end, peek, bind_run, M.bind, h]

theorem consume_ok_inv {n : Nat} {type : TokenType} {message : String} {p : Token}
    (h : consume m_tokens n type message s = Outcome.ok p s1) :
    m_tokens[s.current]? = some p ∧ p.m_type = type
      ∧ s1 = { s with current := s.current + 1 } := by
  cases hts : m_tokens[s.current]? with
  | none => rw [consume_none n type message hts] at h; cases h
  | some t =>
    by_cases hk : t.m_type = TokenType.EOF ∨ t.m_type ≠ type
    · rw [consume_eq_outOfFuel n hts type message hk] at h
      cases h
    · simp only [not_or, not_not] at hk
      rw [consume_eq_ok n hts type message hk.1 hk.2] at h
      injection h with h1 h2
      subst h1
      exact ⟨rfl, hk.2, h2.symm⟩

theorem isLiteral_eq_false_of_LEFT_PAREN {k : TokenType} (h : k = TokenType.LEFT_PAREN) :
    k.isLiteral = false := by
  subst h
  rfl

/-- Every returning call of the code is a `Returns` derivation. -/
theorem run_returns (m_tokens : List Token) :
    ∀ (n : Nat) (rule : Rule) (s s1 : State) (expr : Expr),
      rule.run m_tokens n s = Outcome.ok expr s1 → Returns m_tokens rule s expr s1 := by
  intro n
  induction n with
  | zero =>
    intro rule s s1 expr h
    rw [run_zero] at h
    cases h
  | succ n ih =>
    intro rule s s1 expr h
    cases rule with
    | expression =>
      exact Returns.expression (ih (Rule.binary Level.equality) s s1 expr
        (by rw [← h]; exact (expression_succ n s).symm))
    | binary l =>
      rw [run_binary_succ] at h
      obtain ⟨left, sm, h1, h2⟩ := bind_ok_inv h
      exact Returns.binary (ih _ _ _ _ h1) (ih _ _ _ _ h2)
    | loop l left =>
      cases hts : m_tokens[s.current]? with
      | none => rw [run_loop_none l n left hts] at h; cases h
      | some t =>
        by_cases hk : t.m_type ∈ l.ops
        · rw [run_loop_step l n left hts hk] at h
          obtain ⟨right, sm, h1, h2⟩ := bind_ok_inv h
          exact Returns.loopStep hts hk (ih _ _ _ _ h1) (ih _ _ _ _ h2)
        · rw [run_loop_stop l n left hts hk] at h
          injection h with h1 h2
          subst h1
          subst h2
          exact Returns.loopStop hts hk
    | unary =>
      have h0 : unary m_tokens (n + 1) s = Outcome.ok expr s1 := h
      cases hts : m_tokens[s.current]? with
      | none => rw [unary_none n hts] at h0; cases h0
      | some t =>
        by_cases hk : t.m_type = TokenType.BANG ∨ t.m_type = TokenType.MINUS
        · rw [unary_operator n hts hk] at h0
          obtain ⟨right, sm, h1, h2⟩ := bind_ok_inv h0
          rw [pure_run] at h2
          injection h2 with h3 h4
          subst h3
          subst h4
          exact Returns.unaryOp hts hk (ih Rule.unary _ _ _ h1)
        · simp only [not_or] at hk
          rw [unary_operand n hts hk.1 hk.2] at h0
          exact Returns.unaryPrimary hts hk.1 hk.2 (ih Rule.primary _ _ _ h0)
    | primary =>
      have h0 : primary m_tokens (n + 1) s = Outcome.ok expr s1 := h
      cases hts : m_tokens[s.current]? with
      | none => rw [primary_none n hts] at h0; cases h0
      | some t =>
        by_cases hl : t.m_type.isLiteral = true
        · rw [primary_literal n hts hl] at h0
          injection h0 with h1 h2
          subst h1
          subst h2
          exact Returns.literal hts hl
        · have hl0 : t.m_type.isLiteral = false := by simpa using hl
          by_cases hk : t.m_type = TokenType.LEFT_PAREN
          · rw [primary_paren n hts hk] at h0
            obtain ⟨inner, sm, h1, h2⟩ := bind_ok_inv h0
            obtain ⟨rp, se, h3, h4⟩ := bind_ok_inv h2
            rw [pure_run] at h4
            injection h4 with h5 h6
            obtain ⟨hrp, hkind, hse⟩ := consume_ok_inv h3
            subst h5
            subst h6
            subst hse
            exact Returns.grouping hts hk (ih Rule.expression _ _ _ h1) hrp hkind
          · rw [primary_no_start n hts hl0 hk] at h0
            cases h0

end Inversion

/-! ## Shape of the returned trees -/

theorem lower_minLevel (l : Level) : (Rule.lower l).minLevel = l.toNat + 1 := by
  cases l <;> rfl

theorem lower_accWellFormed (l : Level) : (Rule.lower l).accWellFormed := by
  cases l <;> exact trivial

theorem binaryLevel_of_mem_ops {l : Level} {k : TokenType} (h : k ∈ l.ops) :
    k.binaryLevel = some l.toNat := by
  cases l <;> cases k <;>
    simp [Level.ops, equalityOps, comparisonOps, termOps, factorOps] at h <;> rfl

theorem returns_wellFormed {m_tokens : List Token} {rule : Rule} {s s1 : State} {expr : Expr}
    (h : Returns m_tokens rule s expr s1) :
    rule.accWellFormed → expr.wellFormed = true ∧ rule.minLevel ≤ expr.level := by
  induction h with
  | expression _ ih =>
    intro _
    exact ⟨(ih trivial).1, Nat.zero_le _⟩
  | @binary l _ _ _ left _ _ _ ih1 ih2 =>
    intro _
    have a := ih1 (lower_accWellFormed l)
    rw [lower_minLevel] at a
    exact ih2 ⟨a.1, by omega⟩
  | loopStop _ _ =>
    intro hacc
    exact hacc
  | @loopStep l _ _ _ left right _ op _ hk _ _ ih1 ih2 =>
    intro hacc
    have a := ih1 (lower_accWellFormed l)
    rw [lower_minLevel] at a
    have hl := binaryLevel_of_mem_ops hk
    apply ih2
    refine ⟨?_, ?_⟩
    · simp only [Expr.wellFormed, hl, Bool.and_eq_true, decide_eq_true_eq]
      exact ⟨⟨⟨hacc.2, by omega⟩, hacc.1⟩, a.1⟩
    · simp [Expr.level, hl]
  | unaryOp _ hk _ ih =>
    intro _
    have a := ih trivial
    refine ⟨?_, le_refl _⟩
    simp only [Expr.wellFormed, Bool.and_eq_true, Bool.or_eq_true, beq_iff_eq,
      decide_eq_true_eq]
    exact ⟨⟨hk, a.2⟩, a.1⟩
  | unaryPrimary _ _ _ _ ih =>
    intro _
    have a := ih trivial
    exact ⟨a.1, by have := a.2; simp only [Rule.minLevel] at this ⊢; omega⟩
  | @literal _ t _ _ =>
    intro _
    obtain ⟨v, hv⟩ := lit_eq_Literal t
    rw [hv]
    exact ⟨rfl, le_refl _⟩
  | grouping _ _ _ _ _ ih =>
    intro _
    exact ⟨(ih trivial).1, le_refl _⟩

theorem parse_ok_inv {m_tokens : List Token} {s s1 : State} {expr : Expr}
    (h : parse m_tokens s = Outcome.ok (some expr) s1) :
    expression m_tokens (parseFuel m_tokens) s = Outcome.ok expr s1 := by
  unfold parse at h
  split at h
  · injection h with h1 h2
    injection h1 with h1
    rw [← h1, ← h2]
    assumption
  · injection h with h1 _
    cases h1
  · cases h
  · cases h
  · cases h

/-- C18 (returned trees respect precedence). Whenever `parse` returns a tree, the
tree is precedence-well-formed: every `Binary` operator is one of the ten binary
operator kinds, every `Unary` operator is `BANG` or `MINUS`, the right child of
a `Binary` node of level `l` has a level above `l` and its left child a level
of at least `l` (levels: equality 0, comparison 1, term 2, factor 3, `Unary` 4,
`Literal` and `Grouping` 5), and the operand of a `Unary` node is no `Binary`
node. -/
theorem parse_wellFormed (m_tokens : List Token) (s s1 : State) (expr : Expr)
    (h : parse m_tokens s = Outcome.ok (some expr) s1) : expr.wellFormed = true :=
  (returns_wellFormed
    (run_returns m_tokens (parseFuel m_tokens) Rule.expression s s1 expr (parse_ok_inv h))
    trivial).1

theorem parse_wellFormed_witness :
    (Expr.Binary (lit (num 1)) (tk TokenType.PLUS "+")
      (Expr.Binary (lit (num 2)) (tk TokenType.STAR "*") (lit (num 3)))).wellFormed = true :=
  parse_wellFormed
    [num 1, tk TokenType.PLUS "+", num 2, tk TokenType.STAR "*", num 3, tk TokenType.EOF ""]
    { current := 0, reports := [] } { current := 5, reports := [] } _ rfl

/-! ## Where a returning rule stops -/

theorem stopsFrom_four (k : TokenType) : stopsFrom 4 k := by
  intro l hl
  cases l <;> simp [Level.toNat] at hl

theorem Level.toNat_injective {l l1 : Level} (h : l.toNat = l1.toNat) : l = l1 := by
  cases l <;> cases l1 <;> simp [Level.toNat] at h <;> rfl

theorem lower_stops {m_tokens : List Token} {l : Level} {s s1 : State} {t : Token}
    (h : (Rule.lower l).stops m_tokens s s1) (ht : m_tokens[s1.current]? = some t) :
    stopsFrom (l.toNat + 1) t.m_type := by
  cases l
  · obtain ⟨x, hx, hstop⟩ := h
    rw [hx] at ht
    injection ht with ht
    exact ht ▸ hstop
  · obtain ⟨x, hx, hstop⟩ := h
    rw [hx] at ht
    injection ht with ht
    exact ht ▸ hstop
  · obtain ⟨x, hx, hstop⟩ := h
    rw [hx] at ht
    injection ht with ht
    exact ht ▸ hstop
  · exact stopsFrom_four t.m_type

theorem returns_stops {m_tokens : List Token} {rule : Rule} {s s1 : State} {expr : Expr}
    (h : Returns m_tokens rule s expr s1) : rule.stops m_tokens s s1 := by
  induction h with
  | expression _ ih => exact ih
  | binary _ _ ih1 ih2 => exact ih2 (fun t ht => lower_stops ih1 ht)
  | @loopStop l _ _ t hts hk =>
    intro hpre
    refine ⟨t, hts, fun l1 hl => ?_⟩
    by_cases heq : l.toNat = l1.toNat
    · exact Level.toNat_injective heq ▸ hk
    · exact hpre t hts l1 (by omega)
  | loopStep _ _ _ _ ih1 ih2 =>
    intro _
    exact ih2 (fun t ht => lower_stops ih1 ht)
  | unaryOp _ _ _ _ => exact trivial
  | unaryPrimary _ _ _ _ _ => exact trivial
  | literal _ _ => exact trivial
  | grouping _ _ _ _ _ _ => exact trivial

theorem mem_binaryOps {k : TokenType} (h : k ∈ binaryOps) : ∃ l : Level, k ∈ l.ops := by
  cases k <;> simp [binaryOps] at h <;>
    first
    | exact ⟨Level.equality, by decide⟩
    | exact ⟨Level.comparison, by decide⟩
    | exact ⟨Level.term, by decide⟩
    | exact ⟨Level.factor, by decide⟩

/-- C19 (maximal consumption, no end-of-input requirement). Whenever
`expression` returns, the token at the cursor is none of the ten binary
operator kinds; that token need not be `EOF`: `parse` on
`[NUMBER 1, NUMBER 2, EOF]` returns `Literal 1` with the cursor at index 1 and
no report. -/
theorem expression_stops_at_non_operator :
    (∀ (m_tokens : List Token) (fuel : Nat) (s s1 : State) (expr : Expr),
      expression m_tokens fuel s = Outcome.ok expr s1 →
      ∃ t, m_tokens[s1.current]? = some t ∧ t.m_type ∉ binaryOps)
    ∧ parse [num 1, num 2, tk TokenType.EOF ""] { current := 0, reports := [] }
      = Outcome.ok (some (Expr.Literal (Value.number 1))) { current := 1, reports := [] } := by
  refine ⟨?_, rfl⟩
  intro m_tokens fuel s s1 expr h
  obtain ⟨t, ht, hstop⟩ := returns_stops (run_returns m_tokens fuel Rule.expression s s1 expr h)
  refine ⟨t, ht, fun hmem => ?_⟩
  obtain ⟨l, hl⟩ := mem_binaryOps hmem
  exact hstop l (Nat.zero_le _) hl

theorem expression_stops_at_non_operator_witness :
    ∃ t, [num 1, tk TokenType.PLUS "+", num 2, tk TokenType.RIGHT_PAREN ")",
        tk TokenType.EOF ""][(State.mk 3 []).current]? = some t ∧ t.m_type ∉ binaryOps :=
  expression_stops_at_non_operator.1
    [num 1, tk TokenType.PLUS "+", num 2, tk TokenType.RIGHT_PAREN ")", tk TokenType.EOF ""]
    10 { current := 0, reports := [] } { current := 3, reports := [] }
    (Expr.Binary (lit (num 1)) (tk TokenType.PLUS "+") (lit (num 2))) rfl

/-! ## Token accounting -/

theorem lower_accSize (l : Level) : (Rule.lower l).accSize = 0 := by
  cases l <;> rfl

theorem lower_accOperators (l : Level) : (Rule.lower l).accOperators = [] := by
  cases l <;> rfl

theorem size_pos (expr : Expr) : 0 < expr.size := by
  cases expr <;> simp [Expr.size]

theorem returns_accounts {m_tokens : List Token} {rule : Rule} {s s1 : State} {expr : Expr}
    (h : Returns m_tokens rule s expr s1) :
    s1.current + rule.accSize = s.current + expr.size ∧ rule.accSize ≤ expr.size
      ∧ s1.reports = s.reports
      ∧ ∀ op ∈ expr.operators, op ∈ rule.accOperators
          ∨ ∃ k, s.current ≤ k ∧ k < s1.current ∧ m_tokens[k]? = some op := by
  induction h with
  | expression _ ih => exact ih
  | @binary l s sa sb left expr _ _ ih1 ih2 =>
    rw [lower_accSize, lower_accOperators] at ih1
    simp only [Rule.accSize, Rule.accOperators] at ih2 ⊢
    obtain ⟨a1, _, a3, a4⟩ := ih1
    obtain ⟨b1, b2, b3, b4⟩ := ih2
    refine ⟨by omega, Nat.zero_le _, by rw [b3, a3], fun op hop => Or.inr ?_⟩
    rcases b4 op hop with hin | ⟨k, hk1, hk2, hk3⟩
    · rcases a4 op hin with hin1 | ⟨k, hk1, hk2, hk3⟩
      · cases hin1
      · exact ⟨k, hk1, by omega, hk3⟩
    · exact ⟨k, by omega, hk2, hk3⟩
  | loopStop _ _ =>
    exact ⟨rfl, le_refl _, rfl, fun op hop => Or.inl hop⟩
  | @loopStep l s sa sb left right expr op hts _ _ _ ih1 ih2 =>
    rw [lower_accSize, lower_accOperators] at ih1
    simp only [Rule.accSize, Rule.accOperators, Expr.size, Expr.operators] at ih1 ih2 ⊢
    obtain ⟨a1, _, a3, a4⟩ := ih1
    obtain ⟨b1, b2, b3, b4⟩ := ih2
    refine ⟨by omega, by omega, by rw [b3, a3], fun x hx => ?_⟩
    rcases b4 x hx with hin | ⟨k, hk1, hk2, hk3⟩
    · rcases List.mem_append.1 hin with hleft | hrest
      · exact Or.inl hleft
      · rcases List.mem_cons.1 hrest with hop | hright
        · exact Or.inr ⟨s.current, le_refl _, by omega, hop ▸ hts⟩
        · rcases a4 x hright with hnil | ⟨k, hk1, hk2, hk3⟩
          · cases hnil
          · exact Or.inr ⟨k, by omega, by omega, hk3⟩
    · exact Or.inr ⟨k, by omega, hk2, hk3⟩
  | @unaryOp s sa right op hts _ _ ih =>
    simp only [Rule.accSize, Rule.accOperators, Expr.size, Expr.operators] at ih ⊢
    obtain ⟨a1, _, a3, a4⟩ := ih
    refine ⟨by omega, Nat.zero_le _, a3, fun x hx => Or.inr ?_⟩
    rcases List.mem_cons.1 hx with hop | hright
    · exact ⟨s.current, le_refl _, by omega, hop ▸ hts⟩
    · rcases a4 x hright with hnil | ⟨k, hk1, hk2, hk3⟩
      · cases hnil
      · exact ⟨k, by omega, hk2, hk3⟩
  | unaryPrimary _ _ _ _ ih => exact ih
  | @literal s t _ _ =>
    obtain ⟨v, hv⟩ := lit_eq_Literal t
    rw [hv]
    simp [Rule.accSize, Expr.size, Expr.operators]
  | @grouping s sa expr lp rp _ _ _ _ _ ih =>
    simp only [Rule.accSize, Rule.accOperators, Expr.size, Expr.operators] at ih ⊢
    obtain ⟨a1, _, a3, a4⟩ := ih
    refine ⟨by omega, Nat.zero_le _, a3, fun x hx => Or.inr ?_⟩
    rcases a4 x hx with hnil | ⟨k, hk1, hk2, hk3⟩
    · cases hnil
    · exact ⟨k, by omega, by omega, hk3⟩

theorem accounts_of_returns {m_tokens : List Token} {rule : Rule} {s s1 : State} {expr : Expr}
    (h : Returns m_tokens rule s expr s1) (h0 : rule.accSize = 0)
    (h1 : rule.accOperators = []) : Accounts m_tokens s expr s1 := by
  obtain ⟨a1, _, a3, a4⟩ := returns_accounts h
  rw [h0] at a1
  rw [h1] at a4
  have hpos := size_pos expr
  refine ⟨by omega, by omega, a3, fun op hop => ?_⟩
  rcases a4 op hop with hnil | hk
  · cases hnil
  · exact hk

/-- C20 (consumed-token accounting and forward progress). With `size` counting
one token for a literal, two for a grouping and one for each operator: whenever
one of the grammar rules `expression`, `equality`, `comparison`, `term`,
`factor`, `unary`, `primary`, started at index `i`, returns a tree `t` with the
cursor at `j`, then `j - i = size t`, `j > i`, and every operator token stored
in `t` is the token of the input at a position in `[i, j)`. -/
theorem rules_account_for_tokens (m_tokens : List Token) (fuel : Nat) (s s1 : State)
    (expr : Expr) :
    (expression m_tokens fuel s = Outcome.ok expr s1 → Accounts m_tokens s expr s1)
      ∧ (equality m_tokens fuel s = Outcome.ok expr s1 → Accounts m_tokens s expr s1)
      ∧ (comparison m_tokens fuel s = Outcome.ok expr s1 → Accounts m_tokens s expr s1)
      ∧ (term m_tokens fuel s = Outcome.ok expr s1 → Accounts m_tokens s expr s1)
      ∧ (factor m_tokens fuel s = Outcome.ok expr s1 → Accounts m_tokens s expr s1)
      ∧ (unary m_tokens fuel s = Outcome.ok expr s1 → Accounts m_tokens s expr s1)
      ∧ (primary m_tokens fuel s = Outcome.ok expr s1 → Accounts m_tokens s expr s1) :=
  ⟨fun h => accounts_of_returns (run_returns m_tokens fuel Rule.expression s s1 expr h) rfl rfl,
    fun h => accounts_of_returns
      (run_returns m_tokens fuel (Rule.binary Level.equality) s s1 expr h) rfl rfl,
    fun h => accounts_of_returns
      (run_returns m_tokens fuel (Rule.binary Level.comparison) s s1 expr h) rfl rfl,
    fun h => accounts_of_returns
      (run_returns m_tokens fuel (Rule.binary Level.term) s s1 expr h) rfl rfl,
    fun h => accounts_of_returns
      (run_returns m_tokens fuel (Rule.binary Level.factor) s s1 expr h) rfl rfl,
    fun h => accounts_of_returns (run_returns m_tokens fuel Rule.unary s s1 expr h) rfl rfl,
    fun h => accounts_of_returns (run_returns m_tokens fuel Rule.primary s s1 expr h) rfl rfl⟩

theorem rules_account_for_tokens_witness :
    Accounts [tk TokenType.MINUS "-", num 1, tk TokenType.STAR "*", num 2, tk TokenType.EOF ""]
      { current := 0, reports := [] }
      (Expr.Binary (Expr.Unary (tk TokenType.MINUS "-") (lit (num 1))) (tk TokenType.STAR "*")
        (lit (num 2)))
      { current := 4, reports := [] } :=
  (rules_account_for_tokens
    [tk TokenType.MINUS "-", num 1, tk TokenType.STAR "*", num 2, tk TokenType.EOF ""] 10
    { current := 0, reports := [] } { current := 4, reports := [] }
    (Expr.Binary (Expr.Unary (tk TokenType.MINUS "-") (lit (num 1))) (tk TokenType.STAR "*")
      (lit (num 2)))).1 rfl

/-! ## Parsing a printed tree -/

theorem unparse_length (expr : Expr) : expr.unparse.length = expr.size := by
  induction expr with
  | Literal v => rfl
  | Grouping e ih => simp [Expr.unparse, Expr.size, ih]; omega
  | Unary op e ih => simp [Expr.unparse, Expr.size, ih]; omega
  | Binary left op right ih1 ih2 => simp [Expr.unparse, Expr.size, ih1, ih2]; omega

theorem lit_token (v : Value) : lit v.token = Expr.Literal v ∧ v.token.m_type.isLiteral = true := by
  cases v with
  | null => exact ⟨rfl, rfl⟩
  | bool b => cases b <;> exact ⟨rfl, rfl⟩
  | number n => exact ⟨rfl, rfl⟩
  | string str => exact ⟨rfl, rfl⟩

theorem getElem?_after {m_tokens pre post : List Token} {expr : Expr} {nxt : Token}
    (h : m_tokens = pre ++ expr.unparse ++ nxt :: post) :
    m_tokens[pre.length + expr.size]? = some nxt := by
  have hlen : (pre ++ expr.unparse).length = pre.length + expr.size := by
    simp [unparse_length]
  rw [h, ← hlen]
  exact getElem?_append_cons (pre ++ expr.unparse) nxt post

theorem getElem?_first {m_tokens pre : List Token} {x : Token} (rest : List Token)
    (h : m_tokens = pre ++ x :: rest) : m_tokens[pre.length]? = some x :=
  h ▸ getElem?_append_cons pre x rest

theorem stopsFrom_mono {n m : Nat} {k : TokenType} (h : stopsFrom n k) (hnm : n ≤ m) :
    stopsFrom m k :=
  fun l hl => h l (by omega)

theorem lower_cost (l : Level) : (Rule.lower l).cost + 1 = (Rule.binary l).cost := by
  cases l <;> rfl

theorem binary_cost_pos (l : Level) : 3 ≤ (Rule.binary l).cost := by
  cases l <;> simp [Rule.cost, Level.toNat]

theorem parses_of_continues {l : Level} {expr : Expr} (h : Continues l expr) :
    Parses (Rule.binary l) expr := by
  intro m_tokens pre post nxt fuel r hts hstop hfuel
  have hc := binary_cost_pos l
  obtain ⟨n, rfl⟩ : ∃ n, fuel = n + 1 := ⟨fuel - 1, by omega⟩
  obtain ⟨m, hm, hrun⟩ := h m_tokens pre post nxt n r hts
    (stopsFrom_mono hstop (Nat.le_succ _)) hfuel
  obtain ⟨k, rfl⟩ : ∃ k, m = k + 1 := ⟨m - 1, by omega⟩
  rw [hrun]
  exact run_loop_stop (s := State.mk (pre.length + expr.size) r) l k expr
    (getElem?_after hts) (hstop l (le_refl _))

theorem continues_of_lower {l : Level} {expr : Expr} (h : Parses (Rule.lower l) expr) :
    Continues l expr := by
  intro m_tokens pre post nxt n r hts hstop hfuel
  have hc := lower_cost l
  refine ⟨n, by omega, ?_⟩
  rw [run_binary_succ,
    bind_ok (h m_tokens pre post nxt n r hts (by rw [lower_minLevel]; exact hstop) (by omega))]

theorem ops_disjoint {l l1 : Level} {k : TokenType} (h : k ∈ l.ops) (hne : l.toNat < l1.toNat) :
    k ∉ l1.ops := by
  intro h1
  have a := binaryLevel_of_mem_ops h
  have b := binaryLevel_of_mem_ops h1
  rw [a] at b
  injection b with b
  omega

theorem continues_binary {l : Level} {left right : Expr} {op : Token}
    (hk : op.m_type ∈ l.ops) (hl : Continues l left) (hr : Parses (Rule.lower l) right) :
    Continues l (Expr.Binary left op right) := by
  intro m_tokens pre post nxt n r hts hstop hfuel
  have hc := binary_cost_pos l
  have hlc := lower_cost l
  simp only [Expr.size] at hfuel ⊢
  have hts1 : m_tokens = pre ++ left.unparse ++ op :: (right.unparse ++ nxt :: post) := by
    rw [hts]
    simp [Expr.unparse]
  obtain ⟨m1, hm1, hrun1⟩ := hl m_tokens pre (right.unparse ++ nxt :: post) op n r hts1
    (fun l1 hl1 => ops_disjoint hk (by omega)) (by omega)
  obtain ⟨m, rfl⟩ : ∃ m, m1 = m + 1 := ⟨m1 - 1, by omega⟩
  have hop : m_tokens[(State.mk (pre.length + left.size) r).current]? = some op :=
    getElem?_after hts1
  have hts2 : m_tokens = (pre ++ left.unparse ++ [op]) ++ right.unparse ++ nxt :: post := by
    rw [hts]
    simp [Expr.unparse]
  have hlen : (pre ++ left.unparse ++ [op]).length = pre.length + left.size + 1 := by
    rw [List.length_append, List.length_append, unparse_length]
    rfl
  have hrun2 := hr m_tokens (pre ++ left.unparse ++ [op]) post nxt m r hts2
    (by rw [lower_minLevel]; exact hstop) (by omega)
  rw [hlen] at hrun2
  refine ⟨m, by omega, ?_⟩
  rw [hrun1, run_loop_step l m left hop hk, bind_ok hrun2]
  rw [show pre.length + left.size + 1 + right.size = pre.length + (1 + left.size + right.size)
    by omega]

theorem parses_expression {expr : Expr} (h : Parses (Rule.binary Level.equality) expr) :
    Parses Rule.expression expr := by
  intro m_tokens pre post nxt fuel r hts hstop hfuel
  obtain ⟨n, rfl⟩ : ∃ n, fuel = n + 1 := ⟨fuel - 1, by simp only [Rule.cost] at hfuel; omega⟩
  have hrun := h m_tokens pre post nxt n r hts hstop
    (by simp only [Rule.cost, Level.toNat] at hfuel ⊢; omega)
  rw [← hrun]
  exact expression_succ n _

theorem parses_literal (v : Value) : Parses Rule.primary (Expr.Literal v) := by
  intro m_tokens pre post nxt fuel r hts _ hfuel
  obtain ⟨n, rfl⟩ : ∃ n, fuel = n + 1 := ⟨fuel - 1, by simp only [Rule.cost] at hfuel; omega⟩
  have htok : m_tokens[(State.mk pre.length r).current]? = some v.token :=
    getElem?_first (nxt :: post) (by rw [hts]; simp [Expr.unparse])
  have hrun := primary_literal n htok (lit_token v).2
  rw [(lit_token v).1] at hrun
  exact hrun

theorem parses_grouping {inner : Expr} (h : Parses Rule.expression inner) :
    Parses Rule.primary (Expr.Grouping inner) := by
  intro m_tokens pre post nxt fuel r hts _ hfuel
  simp only [Expr.size, Rule.cost] at hfuel ⊢
  obtain ⟨n, rfl⟩ : ∃ n, fuel = n + 1 := ⟨fuel - 1, by omega⟩
  have hlp : m_tokens[pre.length]? = some (tk TokenType.LEFT_PAREN "(") :=
    getElem?_first (inner.unparse ++ tk TokenType.RIGHT_PAREN ")" :: nxt :: post)
      (by rw [hts]; simp [Expr.unparse])
  have hts1 : m_tokens = (pre ++ [tk TokenType.LEFT_PAREN "("]) ++ inner.unparse
      ++ tk TokenType.RIGHT_PAREN ")" :: (nxt :: post) := by
    rw [hts]
    simp [Expr.unparse]
  have hlen : (pre ++ [tk TokenType.LEFT_PAREN "("]).length = pre.length + 1 := by simp
  have hrun := h m_tokens (pre ++ [tk TokenType.LEFT_PAREN "("]) (nxt :: post)
    (tk TokenType.RIGHT_PAREN ")") n r hts1
    (fun l _ => by cases l <;> decide) (by simp only [Rule.cost]; omega)
  have hrp := getElem?_after hts1
  rw [hlen] at hrun hrp
  have hgr := primary_grouping hlp rfl hrun hrp rfl
  refine hgr.trans ?_
  rw [show pre.length + 1 + inner.size + 1 = pre.length + (2 + inner.size) by omega]

theorem parses_unary_of_primary {expr : Expr} (h : Parses Rule.primary expr)
    (hk : ∀ (pre post : List Token) (t : Token),
      (pre ++ expr.unparse ++ post)[pre.length]? = some t →
      t.m_type ≠ TokenType.BANG ∧ t.m_type ≠ TokenType.MINUS) :
    Parses Rule.unary expr := by
  intro m_tokens pre post nxt fuel r hts hstop hfuel
  obtain ⟨n, rfl⟩ : ∃ n, fuel = n + 1 := ⟨fuel - 1, by simp only [Rule.cost] at hfuel; omega⟩
  have hne : expr.unparse ≠ [] := by
    intro hnil
    have := unparse_length expr
    rw [hnil] at this
    have := size_pos expr
    simp at *
    omega
  obtain ⟨t, rest, hcons⟩ := List.exists_cons_of_ne_nil hne
  have htok : m_tokens[(State.mk pre.length r).current]? = some t :=
    getElem?_first (rest ++ nxt :: post) (by rw [hts, hcons]; simp)
  have hkind := hk pre (nxt :: post) t (by rw [← hts]; exact htok)
  have hrun := h m_tokens pre post nxt n r hts (fun l hl => by
      cases l <;> simp [Rule.minLevel, Level.toNat] at hl)
    (by simp only [Rule.cost] at hfuel ⊢; omega)
  have h0 : unary m_tokens (n + 1) (State.mk pre.length r) = primary m_tokens n _ :=
    unary_operand n htok hkind.1 hkind.2
  exact h0.trans hrun

theorem parses_unary_op {op : Token} {operand : Expr}
    (hk : op.m_type = TokenType.BANG ∨ op.m_type = TokenType.MINUS)
    (h : Parses Rule.unary operand) : Parses Rule.unary (Expr.Unary op operand) := by
  intro m_tokens pre post nxt fuel r hts hstop hfuel
  simp only [Expr.size, Rule.cost] at hfuel ⊢
  obtain ⟨n, rfl⟩ : ∃ n, fuel = n + 1 := ⟨fuel - 1, by omega⟩
  have hop : m_tokens[(State.mk pre.length r).current]? = some op :=
    getElem?_first (operand.unparse ++ nxt :: post) (by rw [hts]; simp [Expr.unparse])
  have hts1 : m_tokens = (pre ++ [op]) ++ operand.unparse ++ nxt :: post := by
    rw [hts]
    simp [Expr.unparse]
  have hlen : (pre ++ [op]).length = pre.length + 1 := by simp
  have hrun := h m_tokens (pre ++ [op]) post nxt n r hts1 hstop
    (by simp only [Rule.cost]; omega)
  rw [hlen] at hrun
  have hrun1 : unary m_tokens n (State.mk (pre.length + 1) r)
      = Outcome.ok operand (State.mk (pre.length + 1 + operand.size) r) := hrun
  have h0 : unary m_tokens (n + 1) (State.mk pre.length r) = _ := unary_operator n hop hk
  refine h0.trans ?_
  rw [bind_ok hrun1, pure_run,
    show pre.length + 1 + operand.size = pre.length + (1 + operand.size) by omega]

theorem Level.toNat_le (l : Level) : l.toNat ≤ 3 := by
  cases l <;> simp [Level.toNat]

theorem climb {expr : Expr} (top : Nat) (hU : 4 ≤ top → Parses Rule.unary expr)
    (hB : ∀ l : Level, l.toNat = top → Continues l expr) :
    ∀ l : Level, l.toNat ≤ top → Continues l expr ∧ Parses (Rule.binary l) expr := by
  have key : ∀ l : Level, l.toNat ≤ top →
      (l.toNat < top → Parses (Rule.lower l) expr) →
      Continues l expr ∧ Parses (Rule.binary l) expr := by
    intro l hle hlow
    have hc : Continues l expr := by
      rcases Nat.eq_or_lt_of_le hle with heq | hlt
      · exact hB l heq
      · exact continues_of_lower (hlow hlt)
    exact ⟨hc, parses_of_continues hc⟩
  have hF := fun h => key Level.factor h (fun hlt => hU hlt)
  have hT := fun h => key Level.term h (fun hlt => (hF hlt).2)
  have hC := fun h => key Level.comparison h (fun hlt => (hT hlt).2)
  have hE := fun h => key Level.equality h (fun hlt => (hC hlt).2)
  intro l hl
  cases l
  · exact hE hl
  · exact hC hl
  · exact hT hl
  · exact hF hl

theorem exists_level {k : TokenType} {n : Nat} (h : k.binaryLevel = some n) :
    ∃ l : Level, l.toNat = n ∧ k ∈ l.ops := by
  cases k <;> simp [TokenType.binaryLevel] at h <;> subst h <;>
    first
    | exact ⟨Level.equality, rfl, by decide⟩
    | exact ⟨Level.comparison, rfl, by decide⟩
    | exact ⟨Level.term, rfl, by decide⟩
    | exact ⟨Level.factor, rfl, by decide⟩

theorem parses_lower_of {l : Level} {expr : Expr}
    (hU : 4 ≤ expr.level → Parses Rule.unary expr)
    (hL : ∀ l1 : Level, l1.toNat ≤ expr.level → Continues l1 expr ∧ Parses (Rule.binary l1) expr)
    (hlt : l.toNat < expr.level) : Parses (Rule.lower l) expr := by
  cases l
  · exact (hL Level.comparison hlt).2
  · exact (hL Level.term hlt).2
  · exact (hL Level.factor hlt).2
  · exact hU hlt

theorem parses_unary_literal (v : Value) : Parses Rule.unary (Expr.Literal v) := by
  apply parses_unary_of_primary (parses_literal v)
  intro pre post t ht
  have h0 : (pre ++ (Expr.Literal v).unparse ++ post)[pre.length]? = some v.token :=
    getElem?_first (post) (by simp [Expr.unparse])
  rw [h0] at ht
  injection ht with ht
  subst ht
  have hl := isLiteral_ne (lit_token v).2
  exact ⟨hl.1, hl.2.1⟩

theorem parses_unary_grouping {inner : Expr} (h : Parses Rule.primary (Expr.Grouping inner)) :
    Parses Rule.unary (Expr.Grouping inner) := by
  apply parses_unary_of_primary h
  intro pre post t ht
  have h0 : (pre ++ (Expr.Grouping inner).unparse ++ post)[pre.length]?
      = some (tk TokenType.LEFT_PAREN "(") :=
    getElem?_first (inner.unparse ++ tk TokenType.RIGHT_PAREN ")" :: post)
      (by simp [Expr.unparse])
  rw [h0] at ht
  injection ht with ht
  subst ht
  exact ⟨by decide, by decide⟩

theorem parses_wellFormed_tree (expr : Expr) :
    expr.wellFormed = true →
      (5 ≤ expr.level → Parses Rule.primary expr) ∧ (4 ≤ expr.level → Parses Rule.unary expr)
        ∧ ∀ l : Level, l.toNat ≤ expr.level →
            Continues l expr ∧ Parses (Rule.binary l) expr := by
  induction expr with
  | Literal v =>
    intro _
    have hu := parses_unary_literal v
    exact ⟨fun _ => parses_literal v, fun _ => hu,
      climb (Expr.Literal v).level (fun _ => hu) (fun l hl => by
        have := Level.toNat_le l
        simp [Expr.level] at hl
        omega)⟩
  | Grouping inner ih =>
    intro hwf
    have hin := ih hwf
    have hp := parses_grouping (parses_expression (hin.2.2 Level.equality (Nat.zero_le _)).2)
    have hu := parses_unary_grouping hp
    exact ⟨fun _ => hp, fun _ => hu,
      climb (Expr.Grouping inner).level (fun _ => hu) (fun l hl => by
        have := Level.toNat_le l
        simp [Expr.level] at hl
        omega)⟩
  | Unary op operand ih =>
    intro hwf
    simp only [Expr.wellFormed, Bool.and_eq_true, Bool.or_eq_true, beq_iff_eq,
      decide_eq_true_eq] at hwf
    obtain ⟨⟨hk, hlev⟩, hwf1⟩ := hwf
    have hu := parses_unary_op hk ((ih hwf1).2.1 hlev)
    exact ⟨fun h => by simp [Expr.level] at h, fun _ => hu,
      climb (Expr.Unary op operand).level (fun _ => hu) (fun l hl => by
        have := Level.toNat_le l
        simp [Expr.level] at hl
        omega)⟩
  | Binary left op right ih1 ih2 =>
    intro hwf
    cases hlv : op.m_type.binaryLevel with
    | none => simp [Expr.wellFormed, hlv] at hwf
    | some n =>
      simp only [Expr.wellFormed, hlv, Bool.and_eq_true, decide_eq_true_eq] at hwf
      obtain ⟨⟨⟨hleft, hright⟩, hwf1⟩, hwf2⟩ := hwf
      obtain ⟨lop, hlop, hmem⟩ := exists_level hlv
      have hle := Level.toNat_le lop
      have hlevel : (Expr.Binary left op right).level = n := by simp [Expr.level, hlv]
      have h1 := ih1 hwf1
      have h2 := ih2 hwf2
      have hcont : Continues lop (Expr.Binary left op right) :=
        continues_binary hmem (h1.2.2 lop (by omega)).1
          (parses_lower_of h2.2.1 h2.2.2 (by omega))
      rw [hlevel]
      refine ⟨fun h => by omega, fun h => by omega, ?_⟩
      exact climb n (fun h => by omega) (fun l hl => by
        have : l = lop := Level.toNat_injective (by omega)
        exact this ▸ hcont)

/-- C17 (print-then-parse round trip). For every precedence-well-formed tree
`t`, `parse` on the tokens `unparse t` followed by `EOF` returns exactly `t` and
leaves the cursor on the `EOF` token, without a report. -/
theorem parse_unparse (expr : Expr) (eof : Token) (r : List (Token × String))
    (hwf : expr.wellFormed = true) (heof : eof.m_type = TokenType.EOF) :
    parse (expr.unparse ++ [eof]) { current := 0, reports := r }
        = Outcome.ok (some expr) { current := expr.size, reports := r }
      ∧ (expr.unparse ++ [eof])[expr.size]? = some eof := by
  have hp := parses_expression
    ((parses_wellFormed_tree expr hwf).2.2 Level.equality (Nat.zero_le _)).2
  have hts : expr.unparse ++ [eof] = [] ++ expr.unparse ++ eof :: [] := by simp
  have hrun := hp (expr.unparse ++ [eof]) [] [] eof (parseFuel (expr.unparse ++ [eof])) r hts
    (fun l _ => heof ▸ EOF_not_mem_ops l)
    (by simp [parseFuel, Rule.cost, unparse_length]; omega)
  have hnext := getElem?_after hts
  simp only [List.length_nil, Nat.zero_add] at hrun hnext
  exact ⟨parse_of_expression_ok hrun, hnext⟩

theorem parse_unparse_witness :
    parse ((Expr.Binary (Expr.Grouping (Expr.Binary (Expr.Literal (Value.number 1))
          (tk TokenType.PLUS "+") (Expr.Literal (Value.number 2))))
        (tk TokenType.STAR "*")
        (Expr.Unary (tk TokenType.MINUS "-") (Expr.Literal (Value.bool true)))).unparse
        ++ [tk TokenType.EOF ""]) { current := 0, reports := [] }
      = Outcome.ok (some (Expr.Binary (Expr.Grouping (Expr.Binary (Expr.Literal (Value.number 1))
          (tk TokenType.PLUS "+") (Expr.Literal (Value.number 2))))
        (tk TokenType.STAR "*")
        (Expr.Unary (tk TokenType.MINUS "-") (Expr.Literal (Value.bool true)))))
        { current := (Expr.Binary (Expr.Grouping (Expr.Binary (Expr.Literal (Value.number 1))
          (tk TokenType.PLUS "+") (Expr.Literal (Value.number 2))))
        (tk TokenType.STAR "*")
        (Expr.Unary (tk TokenType.MINUS "-") (Expr.Literal (Value.bool true)))).size,
          reports := [] } :=
  (parse_unparse _ (tk TokenType.EOF "") [] (by decide) rfl).1

/-! ## Budget of `parse` and bounds of the token reads -/

section Bounds

variable {m_tokens : List Token} {eof : Token}

theorem bind_ne_fault {α β : Type} {x : M α} {f : α → M β} {s : State}
    (h1 : x s ≠ Outcome.fault) (h2 : ∀ a s1, x s = Outcome.ok a s1 → f a s1 ≠ Outcome.fault) :
    M.bind x f s ≠ Outcome.fault := by
  unfold M.bind
  split
  · next a s1 hx => exact h2 a s1 hx
  · intro h; cases h
  · next hx => exact absurd hx h1
  · intro h; cases h

theorem succ_lt_length {i : Nat} {t : Token}
    (hlast : m_tokens[m_tokens.length - 1]? = some eof) (heof : eof.m_type = TokenType.EOF)
    (h : m_tokens[i]? = some t) (hne : t.m_type ≠ TokenType.EOF) : i + 1 < m_tokens.length := by
  have hlt := lt_length_of_getElem? h
  have hnl : i ≠ m_tokens.length - 1 := by
    intro hc
    rw [← hc, h] at hlast
    injection hlast with hl
    exact hne (hl ▸ heof)
  omega

theorem ne_EOF_of_mem_ops {l : Level} {k : TokenType} (h : k ∈ l.ops) : k ≠ TokenType.EOF :=
  fun hk => EOF_not_mem_ops l (hk ▸ h)

theorem returns_in_bounds {rule : Rule} {s s1 : State} {expr : Expr}
    (hlast : m_tokens[m_tokens.length - 1]? = some eof) (heof : eof.m_type = TokenType.EOF)
    (h : Returns m_tokens rule s expr s1) : s1.current < m_tokens.length := by
  induction h with
  | expression _ ih => exact ih
  | binary _ _ _ ih2 => exact ih2
  | loopStop hts _ => exact lt_length_of_getElem? hts
  | loopStep _ _ _ _ _ ih2 => exact ih2
  | unaryOp _ _ _ ih => exact ih
  | unaryPrimary _ _ _ _ ih => exact ih
  | literal hts hl => exact succ_lt_length hlast heof hts (isLiteral_ne hl).2.2.2
  | grouping _ _ _ hrp hk _ => exact succ_lt_length hlast heof hrp (by simp [hk])

theorem consume_ne_fault {s : State} (n : Nat) (type : TokenType) (message : String)
    (hs : s.current < m_tokens.length) :
    consume m_tokens n type message s ≠ Outcome.fault := by
  obtain ⟨t, ht⟩ := getElem?_some_of_lt m_tokens hs
  by_cases hk : t.m_type = TokenType.EOF ∨ t.m_type ≠ type
  · rw [consume_eq_outOfFuel n ht type message hk]
    intro h; cases h
  · simp only [not_or, not_not] at hk
    rw [consume_eq_ok n ht type message hk.1 hk.2]
    intro h; cases h

/-- Inside a token sequence whose last token is `EOF`, no call of the
precedence chain reads `m_tokens` outside its bounds. -/
theorem run_ne_fault (hlast : m_tokens[m_tokens.length - 1]? = some eof)
    (heof : eof.m_type = TokenType.EOF) :
    ∀ (n : Nat) (rule : Rule) (s : State), s.current < m_tokens.length →
      rule.run m_tokens n s ≠ Outcome.fault := by
  intro n
  induction n with
  | zero =>
    intro rule s _
    rw [run_zero]
    intro h; cases h
  | succ n ih =>
    intro rule s hs
    obtain ⟨t, ht⟩ := getElem?_some_of_lt m_tokens hs
    cases rule with
    | expression =>
      have h0 : Rule.expression.run m_tokens (n + 1) s
          = (Rule.binary Level.equality).run m_tokens n s := expression_succ n s
      rw [h0]
      exact ih _ s hs
    | binary l =>
      rw [run_binary_succ]
      exact bind_ne_fault (ih _ s hs) (fun a s1 hx =>
        ih _ s1 (returns_in_bounds hlast heof (run_returns m_tokens n _ s s1 a hx)))
    | loop l left =>
      by_cases hk : t.m_type ∈ l.ops
      · rw [run_loop_step l n left ht hk]
        have hs1 := succ_lt_length hlast heof ht (ne_EOF_of_mem_ops hk)
        exact bind_ne_fault (ih _ _ hs1) (fun a s1 hx =>
          ih _ s1 (returns_in_bounds hlast heof (run_returns m_tokens n _ _ s1 a hx)))
      · rw [run_loop_stop l n left ht hk]
        intro h; cases h
    | unary =>
      by_cases hk : t.m_type = TokenType.BANG ∨ t.m_type = TokenType.MINUS
      · have h0 : Rule.unary.run m_tokens (n + 1) s = _ := unary_operator n ht hk
        rw [h0]
        have hs1 := succ_lt_length hlast heof ht (by rcases hk with hk | hk <;> simp [hk])
        exact bind_ne_fault (ih Rule.unary _ hs1) (fun a s1 _ => by
          rw [pure_run]
          intro h; cases h)
      · simp only [not_or] at hk
        have h0 : Rule.unary.run m_tokens (n + 1) s = _ := unary_operand n ht hk.1 hk.2
        rw [h0]
        exact ih Rule.primary s hs
    | primary =>
      by_cases hl : t.m_type.isLiteral = true
      · have h0 : Rule.primary.run m_tokens (n + 1) s = _ := primary_literal n ht hl
        rw [h0]
        intro h; cases h
      · have hl0 : t.m_type.isLiteral = false := by simpa using hl
        by_cases hk : t.m_type = TokenType.LEFT_PAREN
        · have h0 : Rule.primary.run m_tokens (n + 1) s = _ := primary_paren n ht hk
          rw [h0]
          have hs1 := succ_lt_length hlast heof ht (by simp [hk])
          exact bind_ne_fault (ih Rule.expression _ hs1) (fun a s1 hx =>
            bind_ne_fault
              (consume_ne_fault n _ _
                (returns_in_bounds hlast heof
                  (run_returns m_tokens n Rule.expression _ s1 a hx)))
              (fun _ _ _ => by
                rw [pure_run]
                intro h; cases h))
        · have h0 : Rule.primary.run m_tokens (n + 1) s = _ := primary_no_start n ht hl0 hk
          rw [h0]
          intro h; cases h

/-- On a non-empty token sequence whose last token is `EOF`, `parse` started at
index 0 never reads `m_tokens` outside its bounds. -/
theorem parse_ne_fault (r : List (Token × String)) (hne : m_tokens ≠ [])
    (hlast : m_tokens[m_tokens.length - 1]? = some eof) (heof : eof.m_type = TokenType.EOF) :
    parse m_tokens { current := 0, reports := r } ≠ Outcome.fault := by
  have hpos : 0 < m_tokens.length := List.length_pos.2 hne
  have hx := run_ne_fault hlast heof (parseFuel m_tokens) Rule.expression
    { current := 0, reports := r } hpos
  have hx1 : expression m_tokens (parseFuel m_tokens) { current := 0, reports := r }
      ≠ Outcome.fault := hx
  unfold parse
  split
  · intro h; cases h
  · intro h; cases h
  · intro h; cases h
  · next hf => exact absurd hf hx1
  · intro h; cases h

end Bounds

/-! ## Token sequences with the `EOF` sentinel -/

theorem EOFTerminated_iff_last (m_tokens : List Token) (hs : EOFTerminated m_tokens = true) :
    ∀ (k : Nat) (x : Token), m_tokens[k]? = some x →
      (x.m_type = TokenType.EOF ↔ k = m_tokens.length - 1) := by
  induction m_tokens with
  | nil => simp [EOFTerminated] at hs
  | cons t rest ih =>
    cases rest with
    | nil =>
      intro k x hk
      simp only [EOFTerminated, beq_iff_eq] at hs
      cases k with
      | zero =>
        simp at hk
        subst hk
        simp [hs]
      | succ k => simp at hk
    | cons u rest =>
      simp only [EOFTerminated, Bool.and_eq_true, bne_iff_ne, ne_eq] at hs
      intro k x hk
      cases k with
      | zero =>
        simp at hk
        subst hk
        simp [hs.1]
      | succ k =>
        have hk1 : (u :: rest)[k]? = some x := by simpa using hk
        have := ih hs.2 k x hk1
        simp only [List.length_cons] at this ⊢
        rw [this]
        omega

theorem EOFTerminated_last (m_tokens : List Token) (hs : EOFTerminated m_tokens = true) :
    ∃ eof, m_tokens[m_tokens.length - 1]? = some eof ∧ eof.m_type = TokenType.EOF := by
  have hne : m_tokens ≠ [] := by
    intro h
    subst h
    simp [EOFTerminated] at hs
  have hpos : 0 < m_tokens.length := List.length_pos.2 hne
  obtain ⟨eof, he⟩ := getElem?_some_of_lt m_tokens (k := m_tokens.length - 1) (by omega)
  exact ⟨eof, he, (EOFTerminated_iff_last m_tokens hs _ eof he).2 rfl⟩

/-- C11, the code at the failing input `[EOF]` with the cursor at index 0, a
cursor state over an EOF-terminated sequence: `advance` finds the cursor at
end, skips `current++` and evaluates `return previous();`, a read of
`m_tokens[current - 1]` before the first token; the call has no defined state
after it. -/
theorem advance_at_index_zero_on_EOF :
    EOFTerminated [tk TokenType.EOF ""] = true
      ∧ is_at_end [tk TokenType.EOF ""] { current := 0, reports := [] }
        = Outcome.ok true { current := 0, reports := [] }
      ∧ advance [tk TokenType.EOF ""] { current := 0, reports := [] } = Outcome.fault := by
  decide

/-- C12 (stop position of `synchronize`). On an EOF-terminated token sequence
`[g1, g2, SEMICOLON, IF, ..., EOF]` with `g1`, `g2` neither `SEMICOLON` nor a
statement keyword and the cursor at index 0, `synchronize` leaves the cursor at
index 3; and for every EOF-terminated token sequence and every start index `i`
not at end, `synchronize` returns with the cursor at the least index `j > i`
such that the token at `j` is `EOF`, or the token at `j - 1` is `SEMICOLON`, or
the token at `j` starts a statement. -/
theorem synchronize_stops :
    (∀ (g1 g2 semi kw : Token) (rest : List Token) (r : List (Token × String)),
      EOFTerminated (g1 :: g2 :: semi :: kw :: rest) = true →
      g1.m_type ≠ TokenType.SEMICOLON → g1.m_type.startsStatement = false →
      g2.m_type ≠ TokenType.SEMICOLON → g2.m_type.startsStatement = false →
      semi.m_type = TokenType.SEMICOLON → kw.m_type = TokenType.IF →
      synchronize (g1 :: g2 :: semi :: kw :: rest) { current := 0, reports := r }
        = Outcome.ok () { current := 3, reports := r })
    ∧ (∀ (m_tokens : List Token) (i : Nat) (r : List (Token × String)) (t : Token),
      EOFTerminated m_tokens = true →
      m_tokens[i]? = some t → t.m_type ≠ TokenType.EOF →
      ∃ j, i < j ∧ isBoundary m_tokens j = true
        ∧ (∀ m, i < m → m < j → isBoundary m_tokens m = false)
        ∧ synchronize m_tokens { current := i, reports := r }
          = Outcome.ok () { current := j, reports := r }) := by
  constructor
  · intro g1 g2 semi kw rest r hs h1 h1k h2 h2k hsemi hkw
    simp only [EOFTerminated, Bool.and_eq_true, bne_iff_ne, ne_eq] at hs
    exact synchronize_stop_position_of_last.1 g1 g2 semi kw rest r h1 h1k hs.1 h2 h2k hs.2.1
      hsemi hkw
  · intro m_tokens i r t hs h hne
    obtain ⟨eof, hlast, heof⟩ := EOFTerminated_last m_tokens hs
    exact synchronize_stop_position_of_last.2 m_tokens i r t eof h hne hlast heof

theorem synchronize_stops_witness :
    synchronize (tk TokenType.PLUS "+" :: tk TokenType.STAR "*" :: tk TokenType.SEMICOLON ";"
        :: tk TokenType.IF "if" :: [num 1, tk TokenType.EOF ""]) { current := 0, reports := [] }
      = Outcome.ok () { current := 3, reports := [] } :=
  synchronize_stops.1 (tk TokenType.PLUS "+") (tk TokenType.STAR "*")
    (tk TokenType.SEMICOLON ";") (tk TokenType.IF "if") [num 1, tk TokenType.EOF ""] []
    (by decide) (by decide) rfl (by decide) rfl rfl rfl

/-- C16 (characterisation of `is_at_end`). For every EOF-terminated token
sequence and every index `i` inside it, `is_at_end` at index `i` returns, leaves
the state unchanged, and is true iff `i` is the index of the final `EOF` token,
`i = length - 1`, equivalently iff the token `peek` returns has kind `EOF`. -/
theorem is_at_end_characterised (m_tokens : List Token) (i : Nat) (r : List (Token × String))
    (t : Token) (hs : EOFTerminated m_tokens = true) (h : m_tokens[i]? = some t) :
    peek m_tokens { current := i, reports := r } = Outcome.ok t { current := i, reports := r }
      ∧ is_at_end m_tokens { current := i, reports := r }
        = Outcome.ok (decide (i = m_tokens.length - 1)) { current := i, reports := r }
      ∧ (is_at_end m_tokens { current := i, reports := r }
            = Outcome.ok true { current := i, reports := r }
          ↔ i = m_tokens.length - 1)
      ∧ (is_at_end m_tokens { current := i, reports := r }
            = Outcome.ok true { current := i, reports := r }
          ↔ t.m_type = TokenType.EOF) := by
  have hpk := peek_eq (s := State.mk i r) h
  have hend := is_at_end_eq (s := State.mk i r) h
  have hiff := EOFTerminated_iff_last m_tokens hs i t h
  have hb : (t.m_type == TokenType.EOF) = decide (i = m_tokens.length - 1) := by
    by_cases he : t.m_type = TokenType.EOF
    · simp [he, hiff.1 he]
    · have hi : ¬ i = m_tokens.length - 1 := fun hi => he (hiff.2 hi)
      simp [he, hi]
  have htrue : is_at_end m_tokens { current := i, reports := r }
      = Outcome.ok true { current := i, reports := r } ↔ t.m_type = TokenType.EOF := by
    rw [hend]
    constructor
    · intro hb
      injection hb with hb
      simpa using hb
    · intro he
      simp [he]
  exact ⟨hpk, hb ▸ hend, htrue.trans hiff, htrue⟩

theorem is_at_end_characterised_witness :
    is_at_end [num 1, num 2, tk TokenType.EOF ""] { current := 2, reports := [] }
        = Outcome.ok (decide (2 = [num 1, num 2, tk TokenType.EOF ""].length - 1))
            { current := 2, reports := [] }
      ∧ (is_at_end [num 1, num 2, tk TokenType.EOF ""] { current := 1, reports := [] }
            = Outcome.ok true { current := 1, reports := [] }
          ↔ 1 = [num 1, num 2, tk TokenType.EOF ""].length - 1) :=
  ⟨(is_at_end_characterised [num 1, num 2, tk TokenType.EOF ""] 2 [] (tk TokenType.EOF "")
      (by decide) rfl).2.1,
    (is_at_end_characterised [num 1, num 2, tk TokenType.EOF ""] 1 [] (num 2)
      (by decide) rfl).2.2.1⟩

/-! ## The failure signal and the entry point -/

end Yard
